import Mathlib

set_option linter.unusedVariables false

/-!
Verification development for the gird build tool (dependency resolution and
execution engine).

The definitions below are a shallow embedding of the Python sources:

* src/gird/common.py     : Target, Dependency and Rule value types;
* src/gird/rulesorter.py : RuleSorter and the recursive resolver
  build_target_graph / build_graph;
* src/gird/utils.py      : get_path_modified_time;
* src/gird/run.py        : run_rule and run_rules;
* src/gird/dependency.py : DependencyFunction.__call__ (tag-file memoization);
* CPython Lib/graphlib.py: TopologicalSorter, the stdlib base class of
  RuleSorter (embedded from the stdlib source because RuleSorter and
  run_rules inherit its prepare / get_ready / is_active / done semantics).

Modelling conventions:

* Paths are already-normalized relative path strings (format_path in
  common.py normalizes every path to be relative to the girdfile directory,
  so path identity is string identity).
* The filesystem is a map from path strings to the optional raw
  st_mtime_ns value: none models a nonexistent path.
* Machine time values are Nat nanosecond counts; the floor division by 1e9
  performed in get_path_modified_time is modelled as exact Nat division
  where the abstraction is immaterial, and exactly — including the binary64
  conversion of st_mtime_ns forced by the float operand 1e9 — in the C10
  section (float_round_53, get_path_modified_time_float).
* Dependency callables are identified by a Nat id; their boolean result is
  given by the environment (funcResult).  Every invocation performed by the
  resolver is recorded in an output trace (a list of ids in call order), so
  that claims about how often a predicate function is invoked are claims
  about that trace.
* Recursion in build_graph is modelled with explicit fuel; a result of
  none means the fuel was exhausted (Python would hit the recursion limit
  on a cyclic rule graph).  All functions are structurally recursive on the
  fuel so that concrete runs evaluate by rfl / decide.
* Python exceptions are modelled with the Except monad; the RErr
  constructors name the Python exception classes raised by the sources.
-/

namespace Gird

/-- Target of a rule: a file path or a phony name (common.py, type alias
Target = Union[pathlib.Path, Phony]). -/
inductive Target where
  | path (p : String)
  | phony (name : String)
  deriving DecidableEq, Repr

/-- Dependency of a rule (common.py, DependencyInternal =
Union[pathlib.Path, Phony, Callable[[], bool]]).  A callable dependency is
identified by a Nat id. -/
inductive Dep where
  | path (p : String)
  | phony (name : String)
  | func (i : Nat)
  deriving DecidableEq, Repr

/-- Subrecipe of a rule: a shell command string or a callable, identified
by its function name (common.py, SubRecipe = Union[str, Callable]). -/
inductive SubRecipe where
  | cmd (c : String)
  | call (name : String)
  deriving DecidableEq, Repr

/-- Rule record (common.py, the frozen dataclass Rule). -/
structure Rule where
  target : Target
  deps : Option (List Dep) := none
  recipe : Option (List SubRecipe) := none
  help : Option String := none
  parallel : Bool := true
  listed : Bool := true
  deriving DecidableEq, Repr

/-- Python exceptions raised by the embedded code paths. -/
inductive RErr where
  | typeError
  | runtimeError
  | valueError
  | keyError
  | cycleError
  | stopIteration
  | callableError
  deriving DecidableEq, Repr

/-- Python dict with string keys, as an insertion-ordered association list
with unique keys (the dict operations below preserve key uniqueness). -/
abbrev Dict (α : Type) := List (String × α)

/-- Graph built by build_target_graph: dict mapping formatted target names
to the list of predecessor target names (a Python set, modelled as a
duplicate-free list). -/
abbrev Graph := Dict (List String)

/-- Assignment d[k] = v on a Python dict: overwrite in place if the key is
present, else append. -/
def dict_set {α : Type} (d : Dict α) (k : String) (v : α) : Dict α :=
  if d.any (fun kv => kv.1 == k) then
    d.map (fun kv => if kv.1 == k then (k, v) else kv)
  else
    d ++ [(k, v)]

/-- Python dict.update: assign every entry of e into d. -/
def dict_update {α : Type} (d e : Dict α) : Dict α :=
  e.foldl (fun acc kv => dict_set acc kv.1 kv.2) d

/-- Keys of a dict in order. -/
def dict_keys {α : Type} (d : Dict α) : List String :=
  d.map Prod.fst

/-- Python set.add on a set modelled as a duplicate-free list. -/
def set_add (s : List String) (x : String) : List String :=
  if x ∈ s then s else s ++ [x]

/-- Formatted name of a target (common.py format_target; format_path is
the identity here because paths are already normalized strings). -/
def format_target : Target → String
  | .path p => p
  | .phony n => n

/-- Formatted name of a non-callable dependency (build_graph applies
format_target to path and phony dependencies only; the func branch is
unreachable because callables are tested first). -/
def format_dep : Dep → String
  | .path p => p
  | .phony n => n
  | .func i => toString i

/-- View of a target as a dependency value, used for the reassignment
`dep = dep_rule.target` in build_graph (rulesorter.py line 100). -/
def Target.asDep : Target → Dep
  | .path p => .path p
  | .phony n => .phony n

/-- Environment of one resolver invocation: the registry mapping formatted
target names to rules (map_target_rule), the filesystem (raw st_mtime_ns
per existing path) and the boolean results of the dependency callables. -/
structure ResolveEnv where
  map_target_rule : String → Option Rule
  fs : String → Option Nat
  funcResult : Nat → Bool

/-- Existence test of a path (pathlib.Path.exists). -/
def pathExists (fs : String → Option Nat) (p : String) : Bool :=
  (fs p).isSome

/-- Modification time of a path in whole seconds (utils.py
get_path_modified_time: st_mtime_ns // 1e9, the floor division modelled
here as exact Nat division; none when the path does not exist).  This is
an idealisation: the float right operand 1e9 makes CPython convert
st_mtime_ns to binary64 before the floor, which differs from exact
division only for mtimes within half a double spacing (at most 128 ns at
current epochs) below a whole-second boundary; get_path_modified_time_float
below models the conversion exactly, and the C10 section quantifies the
discrepancy.  The timestamp-comparison claims C3-C6 use abstract mtimes,
for which the idealisation is immaterial. -/
def get_path_modified_time (fs : String → Option Nat) (p : String) : Option Nat :=
  (fs p).map (fun ns => ns / 1000000000)

/-- Timestamp comparison block of build_graph (rulesorter.py lines
112-128): when both the target of the rule and the (possibly reassigned)
dependency are existing paths, the rule is outdated when the dependency
timestamp is strictly newer; the two RuntimeError branches guard a None
timestamp of an existing object and are unreachable in this model. -/
def compare_timestamps (env : ResolveEnv) (target : Target) (dep : Dep) :
    Except RErr Bool :=
  match target, dep with
  | .path pt, .path pd =>
    if pathExists env.fs pt && pathExists env.fs pd then
      match get_path_modified_time env.fs pt with
      | none => .error .runtimeError
      | some tt =>
        match get_path_modified_time env.fs pd with
        | none => .error .runtimeError
        | some td => .ok (decide (td > tt))
    else
      .ok false
  | _, _ => .ok false

/-- Initial outdatedness of a rule from its own target (rulesorter.py
lines 75-78): a phony target is always outdated, a path target is outdated
when it does not exist. -/
def target_outdated0 (env : ResolveEnv) (t : Target) : Bool :=
  match t with
  | .phony _ => true
  | .path p => !(pathExists env.fs p)

/-- Dependency list of a rule; Python skips the loop when deps is None, and
a loop over an empty tuple is equally a no-op. -/
def Rule.depsList (r : Rule) : List Dep :=
  r.deps.getD []

/-- Recursion step of the resolver: either resolve one rule (the body of
build_graph, rulesorter.py lines 72-134) or process a suffix of the
dependency list of a rule with the accumulated rule_is_outdated flag,
graph and predecessor set. -/
inductive BuildStep where
  | rule (r : Rule)
  | deps (r : Rule) (l : List Dep) (rio : Bool) (g : Graph) (preds : List String)

/-- One resolver computation.  The result is none on fuel exhaustion, and
otherwise the Except value of the Python call (the accumulated
rule_is_outdated flag, graph and predecessors) together with the trace of
dependency-callable invocations performed, in call order.  For the .rule
step the returned graph already contains the own node of the rule when it
is outdated (rulesorter.py lines 130-132). -/
def build_step (env : ResolveEnv) :
    Nat → BuildStep → Option (Except RErr (Bool × Graph × List String) × List Nat)
  | 0, _ => none
  | fuel + 1, .rule r =>
    match build_step env fuel (.deps r r.depsList (target_outdated0 env r.target) [] []) with
    | none => none
    | some (.error e, tr) => some (.error e, tr)
    | some (.ok (rio, g, preds), tr) =>
      some (.ok (rio, (if rio then dict_set g (format_target r.target) preds else g), preds), tr)
  | _ + 1, .deps _ [] rio g preds => some (.ok (rio, g, preds), [])
  | fuel + 1, .deps r (dep :: rest) rio g preds =>
    match dep with
    | .func i =>
      -- rulesorter.py line 86: rule_is_outdated |= dep(); the call is
      -- recorded in the trace.
      (build_step env fuel (.deps r rest (rio || env.funcResult i) g preds)).map
        (fun x => (x.1, i :: x.2))
    | other =>
      match env.map_target_rule (format_dep other) with
      | some depRule =>
        -- rulesorter.py lines 88-100: recursively resolve the rule of the
        -- dependency, merge its graph when outdated, then let the
        -- dependency stand for the target of that rule.
        match build_step env fuel (.rule depRule) with
        | none => none
        | some (.error e, tr) => some (.error e, tr)
        | some (.ok (_, depGraph, _), tr) =>
          -- dep_is_outdated = bool(dep_graph); when outdated the target of
          -- the dependency rule joins the predecessors and its subgraph is
          -- merged (graph.update); rule_is_outdated |= dep_is_outdated.
          match compare_timestamps env r.target depRule.target.asDep with
          | .error e => some (.error e, tr)
          | .ok b =>
            (build_step env fuel (.deps r rest
                ((rio || !depGraph.isEmpty) || b)
                (if !depGraph.isEmpty then dict_update g depGraph else g)
                (if !depGraph.isEmpty then set_add preds (format_target depRule.target) else preds))).map
              (fun x => (x.1, tr ++ x.2))
      | none =>
        match other with
        | .phony _ =>
          -- rulesorter.py lines 101-105: a phony dependency of no rule.
          some (.error .typeError, [])
        | .func _ => some (.error .typeError, [])
        | .path q =>
          if pathExists env.fs q then
            match compare_timestamps env r.target (.path q) with
            | .error e => some (.error e, [])
            | .ok b => build_step env fuel (.deps r rest (rio || b) g preds)
          else
            -- rulesorter.py lines 106-110: a nonexistent file dependency
            -- that is the target of no rule.
            some (.error .runtimeError, [])

/-- Resolve one rule: the Python inner function build_graph, returning the
graph of outdated targets (plus the callable invocation trace). -/
def build_graph (env : ResolveEnv) (fuel : Nat) (r : Rule) :
    Option (Except RErr Graph × List Nat) :=
  match build_step env fuel (.rule r) with
  | none => none
  | some (.error e, tr) => some (.error e, tr)
  | some (.ok (_, g, _), tr) => some (.ok g, tr)

/-- Top level resolver (rulesorter.py build_target_graph): look the
requested formatted target up in map_target_rule (a missing key is a
Python KeyError) and run build_graph on its rule. -/
def build_target_graph (env : ResolveEnv) (fuel : Nat) (target : String) :
    Option (Except RErr Graph × List Nat) :=
  match env.map_target_rule target with
  | none => some (.error .keyError, [])
  | some r => build_graph env fuel r

/-- Registry built by RuleSorter.__init__ (rulesorter.py line 30): the
dict comprehension over the girdfile rules keyed by formatted target, with
later rules overwriting earlier ones on a key collision. -/
def registryOfRules (rules : List Rule) : String → Option Rule :=
  fun k => rules.reverse.find? (fun r => format_target r.target == k)

/-- Environment of the recipe runner: the exit code of each shell command
(subprocess.run(...).returncode; shell exit statuses are 0..255, hence a
Nat) and whether each callable subrecipe raises when invoked. -/
structure RunEnv where
  shell : String → Nat
  callRaises : String → Bool

/-- Observable actions of the recipe runner: a shell command executed, a
callable subrecipe invoked, or a line printed (dry run).  The output_sync
option of run_rule only buffers the printed output of one rule and flushes
it unchanged afterwards, so it does not alter this event sequence. -/
inductive ExecEvent where
  | ran (c : String)
  | called (f : String)
  | printed (s : String)
  deriving DecidableEq, Repr

/-- Loop body of run_rule over the subrecipes (run.py lines 37-51),
returning the events in order and the first error, if any.  A shell
command with returncode > 0 raises RuntimeError after having run; a
raising callable raises after having been invoked; either aborts the
remaining subrecipes. -/
def run_subrecipes (env : RunEnv) (dry_run : Bool) : List SubRecipe → List ExecEvent × Option RErr
  | [] => ([], none)
  | .cmd c :: rest =>
    if dry_run then
      let x := run_subrecipes env dry_run rest
      (ExecEvent.printed c :: x.1, x.2)
    else if env.shell c > 0 then
      ([.ran c], some .runtimeError)
    else
      let x := run_subrecipes env dry_run rest
      (ExecEvent.ran c :: x.1, x.2)
  | .call f :: rest =>
    if dry_run then
      let x := run_subrecipes env dry_run rest
      (ExecEvent.printed (f ++ "()") :: x.1, x.2)
    else if env.callRaises f then
      ([.called f], some .callableError)
    else
      let x := run_subrecipes env dry_run rest
      (ExecEvent.called f :: x.1, x.2)

/-- Run the recipe of one rule (run.py run_rule).  A rule with recipe None
returns immediately.  The output_sync flag only redirects stdout to a
buffer that is printed unchanged at the end, so the event sequence does
not depend on it. -/
def run_rule (env : RunEnv) (rule : Rule) (dry_run : Bool) (output_sync : Bool) :
    List ExecEvent × Option RErr :=
  match rule.recipe with
  | none => ([], none)
  | some rs => run_subrecipes env dry_run rs

/-- Dry-run print action of one subrecipe (run.py lines 40 and 49: the
command text, or the function name followed by parentheses). -/
def dry_run_print : SubRecipe → ExecEvent
  | .cmd c => .printed c
  | .call f => .printed (f ++ "()")

/-!
Model of CPython Lib/graphlib.py TopologicalSorter, the base class of
RuleSorter.  The npredecessors field of a node uses the stdlib sentinels:
a nonnegative count while pending, -1 (_NODE_OUT) once returned by
get_ready, -2 (_NODE_DONE) once marked done.
-/

/-- Per-node bookkeeping of TopologicalSorter (graphlib _NodeInfo). -/
structure NodeInfo where
  npredecessors : Int := 0
  successors : List String := []
  deriving DecidableEq, Repr

/-- State of a TopologicalSorter: the insertion-ordered node2info dict,
the _ready_nodes list (none before prepare), and the passed-out and
finished counters. -/
structure TopoSorter where
  node2info : Dict NodeInfo := []
  readyNodes : Option (List String) := none
  npassedout : Nat := 0
  nfinished : Nat := 0
  deriving DecidableEq, Repr

/-- Lookup in a node2info dict. -/
def n2iFind (l : Dict NodeInfo) (n : String) : Option NodeInfo :=
  (l.find? (fun kv => kv.1 == n)).map Prod.snd

/-- Insert a fresh default entry when the node is absent (graphlib
_get_nodeinfo). -/
def n2iEnsure (l : Dict NodeInfo) (n : String) : Dict NodeInfo :=
  if (n2iFind l n).isSome then l else l ++ [(n, ⟨0, []⟩)]

/-- Update the entry of a node in place. -/
def n2iModify (l : Dict NodeInfo) (n : String) (f : NodeInfo → NodeInfo) : Dict NodeInfo :=
  l.map (fun kv => if kv.1 == n then (n, f kv.2) else kv)

/-- TopologicalSorter.add(node, *predecessors): raises ValueError after
prepare; creates the node -> predecessor counts and the predecessor ->
node successor edges. -/
def TopoSorter.add (t : TopoSorter) (node : String) (preds : List String) :
    Except RErr TopoSorter :=
  if t.readyNodes.isSome then
    .error .valueError
  else
    let l0 := n2iEnsure t.node2info node
    let l1 := n2iModify l0 node
      (fun i => { i with npredecessors := i.npredecessors + preds.length })
    let l2 := preds.foldl
      (fun acc p =>
        n2iModify (n2iEnsure acc p) p (fun i => { i with successors := i.successors ++ [node] }))
      l1
    .ok { t with node2info := l2 }

/-- Successors of a node. -/
def TopoSorter.succs (t : TopoSorter) (n : String) : List String :=
  match n2iFind t.node2info n with
  | some i => i.successors
  | none => []

/-- Bounded reachability along successor edges, used to model the cycle
search of graphlib _find_cycle: graphlib reports a cycle exactly when some
node reaches itself through at least one successor edge. -/
def TopoSorter.reaches (t : TopoSorter) : Nat → String → String → Bool
  | 0, _, _ => false
  | fuel + 1, cur, tgt =>
    (t.succs cur).any (fun m => m == tgt || t.reaches fuel m tgt)

/-- Cycle test equivalent to graphlib _find_cycle returning a cycle. -/
def TopoSorter.hasCycle (t : TopoSorter) : Bool :=
  t.node2info.any (fun kv => t.reaches t.node2info.length kv.1 kv.1)

/-- TopologicalSorter.prepare: raises ValueError when called a second time
(graphlib line "cannot prepare() more than once"); otherwise records the
ready nodes and raises CycleError when the graph has a cycle (the model
drops the partially usable state of a caught CycleError, which no caller
in the embedded sources catches). -/
def TopoSorter.prepare (t : TopoSorter) : Except RErr TopoSorter :=
  if t.readyNodes.isSome then
    .error .valueError
  else if TopoSorter.hasCycle
      { t with readyNodes := some ((t.node2info.filter (fun kv => kv.2.npredecessors == 0)).map Prod.fst) } then
    .error .cycleError
  else
    .ok { t with readyNodes := some ((t.node2info.filter (fun kv => kv.2.npredecessors == 0)).map Prod.fst) }

/-- TopologicalSorter.get_ready: returns the ready nodes, marks them
passed out (_NODE_OUT = -1) and clears the ready list. -/
def TopoSorter.get_ready (t : TopoSorter) : Except RErr (List String × TopoSorter) :=
  match t.readyNodes with
  | none => .error .valueError
  | some ready =>
    let l := ready.foldl (fun acc n => n2iModify acc n (fun i => { i with npredecessors := -1 })) t.node2info
    .ok (ready,
      { t with node2info := l, readyNodes := some [], npassedout := t.npassedout + ready.length })

/-- TopologicalSorter.is_active. -/
def TopoSorter.is_active (t : TopoSorter) : Except RErr Bool :=
  match t.readyNodes with
  | none => .error .valueError
  | some ready => .ok (decide (t.nfinished < t.npassedout) || !ready.isEmpty)

/-- TopologicalSorter.done for a single node, as called by run_rules:
raises ValueError when unprepared, on an unknown node, on a node not yet
passed out, or on a node already done; otherwise marks the node done,
decrements its successors and readies those that reach zero. -/
def TopoSorter.done (t : TopoSorter) (node : String) : Except RErr TopoSorter :=
  match t.readyNodes with
  | none => .error .valueError
  | some ready =>
    match n2iFind t.node2info node with
    | none => .error .valueError
    | some info =>
      if info.npredecessors ≥ 0 then .error .valueError
      else if info.npredecessors == -2 then .error .valueError
      else
        let l0 := n2iModify t.node2info node (fun i => { i with npredecessors := -2 })
        let step := info.successors.foldl
          (fun (acc : Dict NodeInfo × List String) sn =>
            let l1 := n2iModify acc.1 sn (fun i => { i with npredecessors := i.npredecessors - 1 })
            match n2iFind l1 sn with
            | some i => if i.npredecessors == 0 then (l1, acc.2 ++ [sn]) else (l1, acc.2)
            | none => (l1, acc.2))
          (l0, ready)
        .ok { t with node2info := step.1, readyNodes := some step.2,
                     nfinished := t.nfinished + 1 }

/-- Build a TopologicalSorter from a graph (graphlib __init__: one add per
dict item). -/
def TopoSorter.ofGraph (g : Graph) : Except RErr TopoSorter :=
  g.foldlM (fun t kv => t.add kv.1 kv.2) ⟨[], none, 0, 0⟩

/-- State of a RuleSorter (rulesorter.py): the registry mapping, the graph
built by build_target_graph, and the TopologicalSorter state of the base
class, already prepared by __init__ (rulesorter.py line 33). -/
structure RuleSorter where
  map_target_rule : String → Option Rule
  graph : Graph
  topo : TopoSorter

/-- RuleSorter.__init__: build the registry, run build_target_graph on the
formatted requested target, initialize the base TopologicalSorter with the
graph, and prepare it.  Fuel exhaustion of the resolver propagates as
none; resolver exceptions propagate in the Except value. -/
def ruleSorterInit (fs : String → Option Nat) (funcResult : Nat → Bool)
    (rules : List Rule) (target : String) (fuel : Nat) :
    Option (Except RErr RuleSorter × List Nat) :=
  match build_target_graph ⟨registryOfRules rules, fs, funcResult⟩ fuel target with
  | none => none
  | some (.error e, tr) => some (.error e, tr)
  | some (.ok g, tr) =>
    match TopoSorter.ofGraph g with
    | .error e => some (.error e, tr)
    | .ok t =>
      match t.prepare with
      | .error e => some (.error e, tr)
      | .ok t1 => some (.ok ⟨registryOfRules rules, g, t1⟩, tr)

/-- Future map entry of run_rules: the target of a submitted parallel rule
together with the result its worker process will deliver (the events of
run_rule in that process, and its exception if any). -/
abbrev Future := String × (List ExecEvent × Option RErr)

/-- The for-loop of run_rules over the ready targets (run.py lines
86-102): look each rule up, submit it to the pool when parallel (append a
future) or run it synchronously; a synchronous exception propagates
immediately, with the events produced so far.  Returns the futures, the
accumulated event trace and the synchronously completed targets. -/
def dispatch (renv : RunEnv) (map : String → Option Rule) (dry_run output_sync : Bool) :
    List String → List Future → List ExecEvent →
    Except (List ExecEvent × RErr) (List Future × List ExecEvent × List String)
  | [], futures, trace => .ok (futures, trace, [])
  | tgt :: rest, futures, trace =>
    match map tgt with
    | none => .error (trace, .keyError)
    | some rule =>
      if rule.parallel then
        dispatch renv map dry_run output_sync rest
          (futures ++ [(tgt, run_rule renv rule dry_run output_sync)]) trace
      else
        let x := run_rule renv rule dry_run output_sync
        match x.2 with
        | some e => .error (trace ++ x.1, e)
        | none =>
          (dispatch renv map dry_run output_sync rest futures (trace ++ x.1)).map
            (fun y => (y.1, y.2.1, tgt :: y.2.2))

/-- Mark a list of targets done on the sorter (the final for-loop of an
iteration of run_rules, lines 114-115). -/
def doneAll (t : TopoSorter) : List String → Except RErr TopoSorter
  | [] => .ok t
  | n :: rest =>
    match t.done n with
    | .error e => .error e
    | .ok t1 => doneAll t1 rest

/-- The while-loop of run_rules (run.py lines 83-115).  The pick oracle
chooses which submitted future completes first, modelling the
nondeterminism of concurrent.futures.as_completed; the events of a
parallel rule are appended to the global trace when its future is
consumed.  Fuel bounds the number of loop iterations. -/
def run_loop (renv : RunEnv) (map : String → Option Rule) (dry_run output_sync : Bool)
    (pick : List String → Nat) :
    Nat → TopoSorter → List Future → List ExecEvent →
    Option (List ExecEvent × Option RErr)
  | 0, _, _, _ => none
  | fuel + 1, topo, futures, trace =>
    match topo.is_active with
    | .error e => some (trace, some e)
    | .ok false => some (trace, none)
    | .ok true =>
      match topo.get_ready with
      | .error e => some (trace, some e)
      | .ok (targets, topo1) =>
        match dispatch renv map dry_run output_sync targets futures trace with
        | .error (trace1, e) => some (trace1, some e)
        | .ok (futures1, trace1, targetsDone) =>
          if targetsDone.isEmpty then
            match futures1 with
            | [] =>
              -- next(as_completed(...)) on an empty future map raises
              -- StopIteration.
              some (trace1, some .stopIteration)
            | _ :: _ =>
              let idx := pick (futures1.map Prod.fst) % futures1.length
              let fut := futures1.getD idx ("", ([], none))
              let futures2 := futures1.eraseIdx idx
              match fut.2.2 with
              | some e => some (trace1 ++ fut.2.1, some e)
              | none =>
                match topo1.done fut.1 with
                | .error e => some (trace1 ++ fut.2.1, some e)
                | .ok topo2 =>
                  run_loop renv map dry_run output_sync pick fuel topo2 futures2
                    (trace1 ++ fut.2.1)
          else
            match doneAll topo1 targetsDone with
            | .error e => some (trace1, some e)
            | .ok topo2 => run_loop renv map dry_run output_sync pick fuel topo2 futures1 trace1

/-- Run the rules of a RuleSorter (run.py run_rules).  The first statement
is sorter.prepare() (run.py line 79); its exception propagates before the
executor loop starts, with no event produced. -/
def run_rules (renv : RunEnv) (sorter : RuleSorter) (dry_run output_sync : Bool)
    (pick : List String → Nat) (fuel : Nat) : Option (List ExecEvent × Option RErr) :=
  match sorter.topo.prepare with
  | .error e => some ([], some e)
  | .ok topo1 => run_loop renv sorter.map_target_rule dry_run output_sync pick fuel topo1 [] []

/-!
Model of dependency.py DependencyFunction.__call__, the tag-file
memoization of a wrapped dependency function.  This class belongs to the
Make/Ninja back ends of the repository; the in-process resolver above
calls its dependency callables directly (rulesorter.py line 86) without
this memoization.  The model keeps the set of existing tag files (keyed by
function id) and the list of invocations of the wrapped functions.
-/

/-- Tag-file directory state of DependencyFunction: which tag files exist,
and the invocation trace of the wrapped functions. -/
structure DepFnState where
  tags : List Nat := []
  calls : List Nat := []
  deriving DecidableEq, Repr

/-- DependencyFunction.__call__ (dependency.py lines 20-35): when the tag
file exists nothing happens; otherwise the tag file is created and the
wrapped function is invoked (the modification time written for a False
result is not observed by anything modelled here).  The method returns
None, so it yields no boolean to its caller. -/
def dependency_function_call (i : Nat) (s : DepFnState) : DepFnState :=
  if i ∈ s.tags then s
  else { tags := i :: s.tags, calls := s.calls ++ [i] }

/-!  Lemmas about the dict and set operations.  -/

theorem dict_keys_dict_set {α : Type} (d : Dict α) (k : String) (v : α) :
    dict_keys (dict_set d k v) = if d.any (fun kv => kv.1 == k) then dict_keys d else dict_keys d ++ [k] := by
  unfold dict_set
  split
  · simp only [dict_keys, List.map_map]
    apply List.map_congr_left
    intro kv _
    by_cases h : kv.1 == k
    · simp [h, Function.comp]
      exact (eq_of_beq h).symm
    · simp [h, Function.comp]
  · simp [dict_keys]

theorem mem_dict_keys_dict_set {α : Type} (d : Dict α) (k k' : String) (v : α) :
    k' ∈ dict_keys (dict_set d k v) ↔ k' ∈ dict_keys d ∨ k' = k := by
  rw [dict_keys_dict_set]
  split
  next h =>
    simp only [List.any_eq_true, beq_iff_eq] at h
    obtain ⟨kv, hkv, hk⟩ := h
    constructor
    · exact fun h => Or.inl h
    · rintro (h | rfl)
      · exact h
      · subst hk
        exact List.mem_map_of_mem Prod.fst hkv
  next => simp

theorem self_mem_dict_keys_dict_set {α : Type} (d : Dict α) (k : String) (v : α) :
    k ∈ dict_keys (dict_set d k v) := by
  rw [mem_dict_keys_dict_set]; exact Or.inr rfl

theorem mem_dict_keys_dict_update {α : Type} (d e : Dict α) (k : String) :
    k ∈ dict_keys (dict_update d e) ↔ k ∈ dict_keys d ∨ k ∈ dict_keys e := by
  induction e generalizing d with
  | nil => simp [dict_update, dict_keys]
  | cons kv rest ih =>
    show k ∈ dict_keys (dict_update (dict_set d kv.1 kv.2) rest) ↔ _
    rw [ih, mem_dict_keys_dict_set]
    simp [dict_keys]
    tauto

theorem mem_set_add (s : List String) (x y : String) :
    y ∈ set_add s x ↔ y ∈ s ∨ y = x := by
  unfold set_add
  split
  next h => constructor
            · exact fun hy => Or.inl hy
            · rintro (hy | rfl) <;> [exact hy; exact h]
  next => simp

/-!  Lemmas about the recipe runner.  -/

theorem run_subrecipes_ok_append (env : RunEnv) (dr : Bool) (l1 l2 : List SubRecipe)
    (h : (run_subrecipes env dr l1).2 = none) :
    run_subrecipes env dr (l1 ++ l2) =
      ((run_subrecipes env dr l1).1 ++ (run_subrecipes env dr l2).1,
       (run_subrecipes env dr l2).2) := by
  induction l1 with
  | nil => simp [run_subrecipes]
  | cons s rest ih =>
    cases s with
    | cmd c =>
      cases dr with
      | true =>
        simp only [run_subrecipes, List.append_eq] at h ⊢
        simp at h ⊢
        rw [ih h]
        exact ⟨rfl, rfl⟩
      | false =>
        by_cases hc : env.shell c > 0
        · simp [run_subrecipes, hc] at h
        · simp only [run_subrecipes, List.append_eq] at h ⊢
          simp [hc] at h ⊢
          rw [ih h]
          exact ⟨rfl, rfl⟩
    | call f =>
      cases dr with
      | true =>
        simp only [run_subrecipes, List.append_eq] at h ⊢
        simp at h ⊢
        rw [ih h]
        exact ⟨rfl, rfl⟩
      | false =>
        by_cases hc : env.callRaises f
        · simp [run_subrecipes, hc] at h
        · simp only [run_subrecipes, List.append_eq] at h ⊢
          simp [hc] at h ⊢
          rw [ih h]
          exact ⟨rfl, rfl⟩

theorem run_subrecipes_dry (env : RunEnv) (rs : List SubRecipe) :
    run_subrecipes env true rs = (rs.map dry_run_print, none) := by
  induction rs with
  | nil => rfl
  | cons s rest ih =>
    cases s with
    | cmd c => simp [run_subrecipes, ih, dry_run_print]
    | call f => simp [run_subrecipes, ih, dry_run_print]

/-!  Lemmas about the resolver recursion.  -/

theorem build_step_mono (env : ResolveEnv) :
    ∀ f1 f2 t x, f1 ≤ f2 → build_step env f1 t = some x → build_step env f2 t = some x := by
  intro f1
  induction f1 with
  | zero =>
    intro f2 t x _ h
    simp [build_step] at h
  | succ f ih =>
    intro f2 t x hle h
    obtain ⟨g2, rfl⟩ : ∃ g2, f2 = g2 + 1 := ⟨f2 - 1, by omega⟩
    have hfg : f ≤ g2 := by omega
    cases t with
    | rule r =>
      simp only [build_step] at h ⊢
      cases hb : build_step env f (.deps r r.depsList (target_outdated0 env r.target) [] []) with
      | none => rw [hb] at h; simp at h
      | some y =>
        rw [hb] at h
        rw [ih g2 _ y hfg hb]
        exact h
    | deps r l rio g preds =>
      cases l with
      | nil =>
        simp only [build_step] at h ⊢
        exact h
      | cons dep rest =>
        cases dep with
        | func i =>
          simp only [build_step] at h ⊢
          cases hb : build_step env f (.deps r rest (rio || env.funcResult i) g preds) with
          | none => rw [hb] at h; simp at h
          | some y =>
            rw [hb] at h
            rw [ih g2 _ y hfg hb]
            exact h
        | path q =>
          simp only [build_step] at h ⊢
          cases hreg : env.map_target_rule (format_dep (Dep.path q)) with
          | some depRule =>
            rw [hreg] at h
            dsimp only at h ⊢
            cases hb : build_step env f (.rule depRule) with
            | none => rw [hb] at h; simp at h
            | some y =>
              obtain ⟨res, trD⟩ := y
              rw [hb] at h
              rw [ih g2 _ _ hfg hb]
              cases res with
              | error e => exact h
              | ok v =>
                obtain ⟨rioD, gD, pD⟩ := v
                dsimp only at h ⊢
                cases hc : compare_timestamps env r.target depRule.target.asDep with
                | error e => rw [hc] at h; dsimp only at h ⊢; exact h
                | ok b =>
                  rw [hc] at h
                  dsimp only at h ⊢
                  cases hb2 : build_step env f (.deps r rest ((rio || !gD.isEmpty) || b)
                      (if !gD.isEmpty then dict_update g gD else g)
                      (if !gD.isEmpty then set_add preds (format_target depRule.target) else preds)) with
                  | none => rw [hb2] at h; simp at h
                  | some y2 =>
                    rw [hb2] at h
                    rw [ih g2 _ y2 hfg hb2]
                    exact h
          | none =>
            rw [hreg] at h
            dsimp only at h ⊢
            by_cases hex : pathExists env.fs q
            · rw [if_pos hex] at h ⊢
              cases hc : compare_timestamps env r.target (.path q) with
              | error e => rw [hc] at h; dsimp only at h ⊢; exact h
              | ok b =>
                rw [hc] at h
                dsimp only at h ⊢
                exact ih g2 _ x hfg h
            · rw [if_neg hex] at h ⊢
              exact h
        | phony nm =>
          simp only [build_step] at h ⊢
          cases hreg : env.map_target_rule (format_dep (Dep.phony nm)) with
          | some depRule =>
            rw [hreg] at h
            dsimp only at h ⊢
            cases hb : build_step env f (.rule depRule) with
            | none => rw [hb] at h; simp at h
            | some y =>
              obtain ⟨res, trD⟩ := y
              rw [hb] at h
              rw [ih g2 _ _ hfg hb]
              cases res with
              | error e => exact h
              | ok v =>
                obtain ⟨rioD, gD, pD⟩ := v
                dsimp only at h ⊢
                cases hc : compare_timestamps env r.target depRule.target.asDep with
                | error e => rw [hc] at h; dsimp only at h ⊢; exact h
                | ok b =>
                  rw [hc] at h
                  dsimp only at h ⊢
                  cases hb2 : build_step env f (.deps r rest ((rio || !gD.isEmpty) || b)
                      (if !gD.isEmpty then dict_update g gD else g)
                      (if !gD.isEmpty then set_add preds (format_target depRule.target) else preds)) with
                  | none => rw [hb2] at h; simp at h
                  | some y2 =>
                    rw [hb2] at h
                    rw [ih g2 _ y2 hfg hb2]
                    exact h
          | none =>
            rw [hreg] at h
            dsimp only at h ⊢
            exact h

theorem deps_loop_rio (env : ResolveEnv) :
    ∀ fuel r l rio g preds rio2 g2 p2 tr,
      build_step env fuel (.deps r l rio g preds) = some (.ok (rio2, g2, p2), tr) →
      (rio = true → rio2 = true) ∧ (rio2 = false → g2 = g ∧ p2 = preds) := by
  intro fuel
  induction fuel with
  | zero =>
    intro r l rio g preds rio2 g2 p2 tr h
    simp [build_step] at h
  | succ f ih =>
    intro r l rio g preds rio2 g2 p2 tr h
    cases l with
    | nil =>
      simp only [build_step, Option.some_inj, Prod.mk.injEq, Except.ok.injEq] at h
      obtain ⟨⟨h1, h2, h3⟩, h4⟩ := h
      subst h1; subst h2; subst h3
      exact ⟨id, fun _ => ⟨rfl, rfl⟩⟩
    | cons dep rest =>
      cases dep with
      | func i =>
        simp only [build_step] at h
        cases hb : build_step env f (.deps r rest (rio || env.funcResult i) g preds) with
        | none => rw [hb] at h; simp at h
        | some y =>
          obtain ⟨res, tr0⟩ := y
          rw [hb] at h
          simp only [Option.map_some'] at h
          rw [Option.some_inj, Prod.mk.injEq] at h
          obtain ⟨h1, h2⟩ := h
          subst h1
          have hih := ih r rest (rio || env.funcResult i) g preds rio2 g2 p2 tr0 hb
          refine ⟨fun hr => hih.1 (by simp [hr]), hih.2⟩
      | path q =>
        simp only [build_step] at h
        cases hreg : env.map_target_rule (format_dep (Dep.path q)) with
        | some depRule =>
          rw [hreg] at h
          dsimp only at h
          cases hb : build_step env f (.rule depRule) with
          | none => rw [hb] at h; simp at h
          | some y =>
            obtain ⟨res, trD⟩ := y
            rw [hb] at h
            cases res with
            | error e => simp at h
            | ok v =>
              obtain ⟨rioD, gD, pD⟩ := v
              dsimp only at h
              cases hc : compare_timestamps env r.target depRule.target.asDep with
              | error e => rw [hc] at h; simp at h
              | ok b =>
                rw [hc] at h
                dsimp only at h
                cases hb2 : build_step env f (.deps r rest ((rio || !gD.isEmpty) || b)
                    (if !gD.isEmpty then dict_update g gD else g)
                    (if !gD.isEmpty then set_add preds (format_target depRule.target) else preds)) with
                | none => rw [hb2] at h; simp at h
                | some y2 =>
                  obtain ⟨res2, tr2⟩ := y2
                  rw [hb2] at h
                  simp only [Option.map_some'] at h
                  rw [Option.some_inj, Prod.mk.injEq] at h
                  obtain ⟨h1, h2⟩ := h
                  subst h1
                  have hih := ih r rest _ _ _ rio2 g2 p2 tr2 hb2
                  constructor
                  · intro hr
                    exact hih.1 (by simp [hr])
                  · intro hr
                    have hflags : ((rio || !gD.isEmpty) || b) = false := by
                      by_cases hx : ((rio || !gD.isEmpty) || b) = true
                      · exact absurd (hih.1 hx) (by simp [hr])
                      · simp at hx; simp [hx]
                    simp only [Bool.or_eq_false_iff] at hflags
                    obtain ⟨⟨hrio, hdO⟩, hball⟩ := hflags
                    have h2' := hih.2 hr
                    rw [hdO] at h2'
                    simpa using h2'
        | none =>
          rw [hreg] at h
          dsimp only at h
          by_cases hex : pathExists env.fs q
          · rw [if_pos hex] at h
            cases hc : compare_timestamps env r.target (.path q) with
            | error e => rw [hc] at h; simp at h
            | ok b =>
              rw [hc] at h
              dsimp only at h
              have hih := ih r rest (rio || b) g preds rio2 g2 p2 tr h
              refine ⟨fun hr => hih.1 (by simp [hr]), hih.2⟩
          · rw [if_neg hex] at h
            simp at h
      | phony nm =>
        simp only [build_step] at h
        cases hreg : env.map_target_rule (format_dep (Dep.phony nm)) with
        | some depRule =>
          rw [hreg] at h
          dsimp only at h
          cases hb : build_step env f (.rule depRule) with
          | none => rw [hb] at h; simp at h
          | some y =>
            obtain ⟨res, trD⟩ := y
            rw [hb] at h
            cases res with
            | error e => simp at h
            | ok v =>
              obtain ⟨rioD, gD, pD⟩ := v
              dsimp only at h
              cases hc : compare_timestamps env r.target depRule.target.asDep with
              | error e => rw [hc] at h; simp at h
              | ok b =>
                rw [hc] at h
                dsimp only at h
                cases hb2 : build_step env f (.deps r rest ((rio || !gD.isEmpty) || b)
                    (if !gD.isEmpty then dict_update g gD else g)
                    (if !gD.isEmpty then set_add preds (format_target depRule.target) else preds)) with
                | none => rw [hb2] at h; simp at h
                | some y2 =>
                  obtain ⟨res2, tr2⟩ := y2
                  rw [hb2] at h
                  simp only [Option.map_some'] at h
                  rw [Option.some_inj, Prod.mk.injEq] at h
                  obtain ⟨h1, h2⟩ := h
                  subst h1
                  have hih := ih r rest _ _ _ rio2 g2 p2 tr2 hb2
                  constructor
                  · intro hr
                    exact hih.1 (by simp [hr])
                  · intro hr
                    have hflags : ((rio || !gD.isEmpty) || b) = false := by
                      by_cases hx : ((rio || !gD.isEmpty) || b) = true
                      · exact absurd (hih.1 hx) (by simp [hr])
                      · simp at hx; simp [hx]
                    simp only [Bool.or_eq_false_iff] at hflags
                    obtain ⟨⟨hrio, hdO⟩, hball⟩ := hflags
                    have h2' := hih.2 hr
                    rw [hdO] at h2'
                    simpa using h2'
        | none =>
          rw [hreg] at h
          dsimp only at h
          simp at h

theorem build_rule_graph_shape (env : ResolveEnv) (f : Nat) (r : Rule)
    (rio : Bool) (g : Graph) (preds : List String) (tr : List Nat)
    (h : build_step env (f + 1) (.rule r) = some (.ok (rio, g, preds), tr)) :
    ∃ gL, build_step env f (.deps r r.depsList (target_outdated0 env r.target) [] [])
        = some (.ok (rio, gL, preds), tr)
      ∧ g = (if rio then dict_set gL (format_target r.target) preds else gL) := by
  simp only [build_step] at h
  cases hb : build_step env f (.deps r r.depsList (target_outdated0 env r.target) [] []) with
  | none => rw [hb] at h; simp at h
  | some y =>
    obtain ⟨res, trL⟩ := y
    rw [hb] at h
    cases res with
    | error e => simp at h
    | ok v =>
      obtain ⟨rioL, gL, pL⟩ := v
      dsimp only at h
      rw [Option.some_inj, Prod.mk.injEq] at h
      obtain ⟨h1, h2⟩ := h
      simp only [Except.ok.injEq, Prod.mk.injEq] at h1
      obtain ⟨h3, h4, h5⟩ := h1
      subst h3; subst h5; subst h2
      exact ⟨gL, rfl, h4.symm⟩

theorem build_rule_own_key (env : ResolveEnv) (fuel : Nat) (r : Rule)
    (rio : Bool) (g : Graph) (preds : List String) (tr : List Nat)
    (h : build_step env fuel (.rule r) = some (.ok (rio, g, preds), tr)) :
    (rio = false → g = []) ∧ (rio = true → format_target r.target ∈ dict_keys g) := by
  cases fuel with
  | zero => simp [build_step] at h
  | succ f =>
    obtain ⟨gL, hloop, rfl⟩ := build_rule_graph_shape env f r rio g preds tr h
    constructor
    · intro hr
      subst hr
      have hL := (deps_loop_rio env f r r.depsList (target_outdated0 env r.target) [] []
        false gL preds tr hloop).2 rfl
      simp [hL.1]
    · intro hr
      subst hr
      simp only [if_true, reduceIte]
      exact self_mem_dict_keys_dict_set gL (format_target r.target) preds

theorem build_graph_eq_step (env : ResolveEnv) (fuel : Nat) (r : Rule) (g : Graph) (tr : List Nat) :
    build_graph env fuel r = some (.ok g, tr) ↔
      ∃ rio preds, build_step env fuel (.rule r) = some (.ok (rio, g, preds), tr) := by
  constructor
  · intro hx
    unfold build_graph at hx
    cases hb : build_step env fuel (.rule r) with
    | none => rw [hb] at hx; simp at hx
    | some y =>
      obtain ⟨res, tr0⟩ := y
      rw [hb] at hx
      cases res with
      | error e => simp at hx
      | ok v =>
        obtain ⟨rio, g0, p0⟩ := v
        simp only [Option.some_inj, Prod.mk.injEq, Except.ok.injEq] at hx
        obtain ⟨h1, h2⟩ := hx
        subst h1; subst h2
        exact ⟨rio, p0, rfl⟩
  · rintro ⟨rio, preds, hx⟩
    unfold build_graph
    rw [hx]

/-- Well-formedness of a registry mapping: every entry is keyed by the
formatted target of its rule.  RuleSorter builds map_target_rule exactly
this way (rulesorter.py line 30). -/
def registryWF (env : ResolveEnv) : Prop :=
  ∀ k r, env.map_target_rule k = some r → format_target r.target = k

/-- A formatted target name denotes an outdated rule: its registry rule
resolves (with some fuel) to a nonempty graph.  Nonemptiness of the graph
returned by build_graph is exactly how the source itself tests
outdatedness (rulesorter.py line 92 and RuleSorter.is_target_outdated). -/
def outdatedRule (env : ResolveEnv) (k : String) : Prop :=
  ∃ r fuel g tr, env.map_target_rule k = some r ∧ format_target r.target = k ∧
    build_graph env fuel r = some (.ok g, tr) ∧ g ≠ []

theorem keys_outdated_aux (env : ResolveEnv) (hwf : registryWF env) :
    ∀ fuel,
      (∀ r rio g preds tr, build_step env fuel (.rule r) = some (.ok (rio, g, preds), tr) →
        ∀ k, k ∈ dict_keys g → k = format_target r.target ∨ outdatedRule env k)
      ∧ (∀ r l rio g0 p0 rio2 g2 p2 tr,
          build_step env fuel (.deps r l rio g0 p0) = some (.ok (rio2, g2, p2), tr) →
          ∀ k, k ∈ dict_keys g2 → k ∈ dict_keys g0 ∨ outdatedRule env k) := by
  intro fuel
  induction fuel with
  | zero =>
    constructor
    · intro r rio g preds tr h
      simp [build_step] at h
    · intro r l rio g0 p0 rio2 g2 p2 tr h
      simp [build_step] at h
  | succ f ih =>
    obtain ⟨ihR, ihD⟩ := ih
    constructor
    · intro r rio g preds tr h k hk
      obtain ⟨gL, hloop, rfl⟩ := build_rule_graph_shape env f r rio g preds tr h
      have hmem : k ∈ dict_keys gL ∨ k = format_target r.target := by
        cases rio with
        | true =>
          simp only [if_true, reduceIte] at hk
          exact (mem_dict_keys_dict_set gL (format_target r.target) k preds).1 hk
        | false =>
          simp only [Bool.false_eq_true, reduceIte] at hk
          exact Or.inl hk
      rcases hmem with hmem | hmem
      · rcases ihD r r.depsList (target_outdated0 env r.target) [] [] rio gL preds tr hloop k hmem with hin | hout
        · simp [dict_keys] at hin
        · exact Or.inr hout
      · exact Or.inl hmem
    · intro r l rio g0 p0 rio2 g2 p2 tr h k hk
      cases l with
      | nil =>
        simp only [build_step, Option.some_inj, Prod.mk.injEq, Except.ok.injEq] at h
        obtain ⟨⟨h1, h2, h3⟩, h4⟩ := h
        subst h2
        exact Or.inl hk
      | cons dep rest =>
        cases dep with
        | func i =>
          simp only [build_step] at h
          cases hb : build_step env f (.deps r rest (rio || env.funcResult i) g0 p0) with
          | none => rw [hb] at h; simp at h
          | some y =>
            obtain ⟨res, tr0⟩ := y
            rw [hb] at h
            simp only [Option.map_some'] at h
            rw [Option.some_inj, Prod.mk.injEq] at h
            obtain ⟨h1, h2⟩ := h
            subst h1
            exact ihD r rest _ g0 p0 rio2 g2 p2 tr0 hb k hk
        | path q =>
          simp only [build_step] at h
          cases hreg : env.map_target_rule (format_dep (Dep.path q)) with
          | some depRule =>
            rw [hreg] at h
            dsimp only at h
            cases hb : build_step env f (.rule depRule) with
            | none => rw [hb] at h; simp at h
            | some y =>
              obtain ⟨res, trD⟩ := y
              rw [hb] at h
              cases res with
              | error e => simp at h
              | ok v =>
                obtain ⟨rioD, gD, pD⟩ := v
                dsimp only at h
                cases hc : compare_timestamps env r.target depRule.target.asDep with
                | error e => rw [hc] at h; simp at h
                | ok b =>
                  rw [hc] at h
                  dsimp only at h
                  cases hb2 : build_step env f (.deps r rest ((rio || !gD.isEmpty) || b)
                      (if !gD.isEmpty then dict_update g0 gD else g0)
                      (if !gD.isEmpty then set_add p0 (format_target depRule.target) else p0)) with
                  | none => rw [hb2] at h; simp at h
                  | some y2 =>
                    obtain ⟨res2, tr2⟩ := y2
                    rw [hb2] at h
                    simp only [Option.map_some'] at h
                    rw [Option.some_inj, Prod.mk.injEq] at h
                    obtain ⟨h1, h2⟩ := h
                    subst h1
                    rcases ihD r rest _ _ _ rio2 g2 p2 tr2 hb2 k hk with hin | hout
                    · by_cases hdO : gD.isEmpty
                      · rw [if_neg (by simp [hdO])] at hin
                        exact Or.inl hin
                      · rw [if_pos (by simp [hdO])] at hin
                        rcases (mem_dict_keys_dict_update g0 gD k).1 hin with hin0 | hinD
                        · exact Or.inl hin0
                        · rcases ihR depRule rioD gD pD trD hb k hinD with hkf | hout2
                          · refine Or.inr ⟨depRule, f, gD, trD, ?_, ?_, ?_, ?_⟩
                            · rw [hkf, hwf (format_dep (Dep.path q)) depRule hreg]
                              exact hreg
                            · exact hkf.symm
                            · exact (build_graph_eq_step env f depRule gD trD).2 ⟨rioD, pD, hb⟩
                            · intro hgD
                              rw [hgD] at hdO
                              simp at hdO
                          · exact Or.inr hout2
                    · exact Or.inr hout
          | none =>
            rw [hreg] at h
            dsimp only at h
            by_cases hex : pathExists env.fs q
            · rw [if_pos hex] at h
              cases hc : compare_timestamps env r.target (.path q) with
              | error e => rw [hc] at h; simp at h
              | ok b =>
                rw [hc] at h
                dsimp only at h
                exact ihD r rest (rio || b) g0 p0 rio2 g2 p2 tr h k hk
            · rw [if_neg hex] at h
              simp at h
        | phony nm =>
          simp only [build_step] at h
          cases hreg : env.map_target_rule (format_dep (Dep.phony nm)) with
          | some depRule =>
            rw [hreg] at h
            dsimp only at h
            cases hb : build_step env f (.rule depRule) with
            | none => rw [hb] at h; simp at h
            | some y =>
              obtain ⟨res, trD⟩ := y
              rw [hb] at h
              cases res with
              | error e => simp at h
              | ok v =>
                obtain ⟨rioD, gD, pD⟩ := v
                dsimp only at h
                cases hc : compare_timestamps env r.target depRule.target.asDep with
                | error e => rw [hc] at h; simp at h
                | ok b =>
                  rw [hc] at h
                  dsimp only at h
                  cases hb2 : build_step env f (.deps r rest ((rio || !gD.isEmpty) || b)
                      (if !gD.isEmpty then dict_update g0 gD else g0)
                      (if !gD.isEmpty then set_add p0 (format_target depRule.target) else p0)) with
                  | none => rw [hb2] at h; simp at h
                  | some y2 =>
                    obtain ⟨res2, tr2⟩ := y2
                    rw [hb2] at h
                    simp only [Option.map_some'] at h
                    rw [Option.some_inj, Prod.mk.injEq] at h
                    obtain ⟨h1, h2⟩ := h
                    subst h1
                    rcases ihD r rest _ _ _ rio2 g2 p2 tr2 hb2 k hk with hin | hout
                    · by_cases hdO : gD.isEmpty
                      · rw [if_neg (by simp [hdO])] at hin
                        exact Or.inl hin
                      · rw [if_pos (by simp [hdO])] at hin
                        rcases (mem_dict_keys_dict_update g0 gD k).1 hin with hin0 | hinD
                        · exact Or.inl hin0
                        · rcases ihR depRule rioD gD pD trD hb k hinD with hkf | hout2
                          · refine Or.inr ⟨depRule, f, gD, trD, ?_, ?_, ?_, ?_⟩
                            · rw [hkf, hwf (format_dep (Dep.phony nm)) depRule hreg]
                              exact hreg
                            · exact hkf.symm
                            · exact (build_graph_eq_step env f depRule gD trD).2 ⟨rioD, pD, hb⟩
                            · intro hgD
                              rw [hgD] at hdO
                              simp at hdO
                          · exact Or.inr hout2
                    · exact Or.inr hout
          | none =>
            rw [hreg] at h
            dsimp only at h
            simp at h

/-!  Claim C6: only outdated rules appear in a resolved graph.  -/

/-- C6: for every graph successfully returned by the resolver on a
well-formed registry, if the requested rule is not outdated (its key is
absent) the graph is empty — the rule contributes nothing, including no
entries for its own dependencies; and every key of the graph is an
outdated rule, so a dependency rule found not outdated never appears. -/
theorem c6_only_outdated_rules (env : ResolveEnv) (fuel : Nat) (target : String)
    (g : Graph) (tr : List Nat) (hwf : registryWF env)
    (h : build_target_graph env fuel target = some (.ok g, tr)) :
    (target ∉ dict_keys g → g = []) ∧ (∀ k ∈ dict_keys g, outdatedRule env k) := by
  unfold build_target_graph at h
  cases hreg : env.map_target_rule target with
  | none => rw [hreg] at h; simp at h
  | some r =>
    rw [hreg] at h
    dsimp only at h
    obtain ⟨rio, preds, hstep⟩ := (build_graph_eq_step env fuel r g tr).1 h
    have hfmt : format_target r.target = target := hwf target r hreg
    have hok := build_rule_own_key env fuel r rio g preds tr hstep
    constructor
    · intro hnk
      cases hrio : rio with
      | false => exact hok.1 hrio
      | true => exact absurd (hfmt ▸ hok.2 hrio) hnk
    · intro k hk
      rcases (keys_outdated_aux env hwf fuel).1 r rio g preds tr hstep k hk with hkf | hout
      · refine ⟨r, fuel, g, tr, ?_, ?_, h, ?_⟩
        · rw [hkf, hfmt]
          exact hreg
        · rw [hkf, hfmt]
        · intro hg
          rw [hg] at hk
          simp [dict_keys] at hk
      · exact hout

/-- Registry of the C6 witness: the requested phony rule t1 depends on the
rules of paths a (missing, outdated) and b (existing, up to date). -/
def c6_env : ResolveEnv :=
  ⟨(fun k =>
      if k == "t1" then some { target := .phony "t1", deps := some [.path "a", .path "b"] }
      else if k == "a" then some { target := .path "a" }
      else if k == "b" then some { target := .path "b" }
      else none),
   (fun p => if p == "b" then some 5000000000 else none), (fun _ => false)⟩

theorem c6_env_wf : registryWF c6_env := by
  intro k r h
  unfold c6_env at h
  dsimp only at h
  by_cases h1 : k == "t1"
  · rw [if_pos h1, Option.some_inj] at h
    rw [← h, eq_of_beq h1]
    rfl
  · rw [if_neg h1] at h
    by_cases h2 : k == "a"
    · rw [if_pos h2, Option.some_inj] at h
      rw [← h, eq_of_beq h2]
      rfl
    · rw [if_neg h2] at h
      by_cases h3 : k == "b"
      · rw [if_pos h3, Option.some_inj] at h
        rw [← h, eq_of_beq h3]
        rfl
      · rw [if_neg h3] at h
        exact absurd h (by simp)

/-- Graph returned by the resolver on the C6 witness registry. -/
def c6_graph : Graph := [("a", []), ("t1", ["a"])]

/-- Witness for C6: on the concrete registry the resolver returns the
graph with keys a and t1 only; rule b (not outdated) is absent, and every
key present is an outdated rule. -/
theorem c6_witness :
    build_target_graph c6_env 10 "t1" = some (.ok c6_graph, [])
    ∧ "b" ∉ dict_keys c6_graph
    ∧ (∀ k ∈ dict_keys c6_graph, outdatedRule c6_env k) :=
  ⟨rfl, by decide,
   (c6_only_outdated_rules c6_env 10 "t1" c6_graph [] c6_env_wf rfl).2⟩

theorem deps_loop_subgraphs (env : ResolveEnv) :
    ∀ fuel r l rio g0 p0 rio2 g2 p2 tr,
      build_step env fuel (.deps r l rio g0 p0) = some (.ok (rio2, g2, p2), tr) →
      (∀ k, k ∈ dict_keys g0 → k ∈ dict_keys g2)
      ∧ (∀ d ∈ l, (∀ i, d ≠ .func i) →
          ∀ rd, env.map_target_rule (format_dep d) = some rd →
            ∃ fd gd trd, fd < fuel ∧ build_graph env fd rd = some (.ok gd, trd)
              ∧ ∀ k, k ∈ dict_keys gd → k ∈ dict_keys g2) := by
  intro fuel
  induction fuel with
  | zero =>
    intro r l rio g0 p0 rio2 g2 p2 tr h
    simp [build_step] at h
  | succ f ih =>
    intro r l rio g0 p0 rio2 g2 p2 tr h
    cases l with
    | nil =>
      simp only [build_step, Option.some_inj, Prod.mk.injEq, Except.ok.injEq] at h
      obtain ⟨⟨h1, h2, h3⟩, h4⟩ := h
      subst h2
      exact ⟨fun k hk => hk, fun d hd => absurd hd (by simp)⟩
    | cons dep rest =>
      cases dep with
      | func i =>
        simp only [build_step] at h
        cases hb : build_step env f (.deps r rest (rio || env.funcResult i) g0 p0) with
        | none => rw [hb] at h; simp at h
        | some y =>
          obtain ⟨res, tr0⟩ := y
          rw [hb] at h
          simp only [Option.map_some'] at h
          rw [Option.some_inj, Prod.mk.injEq] at h
          obtain ⟨h1, h2⟩ := h
          subst h1
          obtain ⟨hmono, hdeps⟩ := ih r rest _ g0 p0 rio2 g2 p2 tr0 hb
          refine ⟨hmono, ?_⟩
          intro d hd hfunc rd hrd
          rcases List.mem_cons.1 hd with rfl | hd2
          · exact absurd rfl (hfunc i)
          · obtain ⟨fd, gd, trd, hlt, hbg, hkeys⟩ := hdeps d hd2 hfunc rd hrd
            exact ⟨fd, gd, trd, by omega, hbg, hkeys⟩
      | path q =>
        simp only [build_step] at h
        cases hreg : env.map_target_rule (format_dep (Dep.path q)) with
        | some depRule =>
          rw [hreg] at h
          dsimp only at h
          cases hb : build_step env f (.rule depRule) with
          | none => rw [hb] at h; simp at h
          | some y =>
            obtain ⟨res, trD⟩ := y
            rw [hb] at h
            cases res with
            | error e => simp at h
            | ok v =>
              obtain ⟨rioD, gD, pD⟩ := v
              dsimp only at h
              cases hc : compare_timestamps env r.target depRule.target.asDep with
              | error e => rw [hc] at h; simp at h
              | ok b =>
                rw [hc] at h
                dsimp only at h
                cases hb2 : build_step env f (.deps r rest ((rio || !gD.isEmpty) || b)
                    (if !gD.isEmpty then dict_update g0 gD else g0)
                    (if !gD.isEmpty then set_add p0 (format_target depRule.target) else p0)) with
                | none => rw [hb2] at h; simp at h
                | some y2 =>
                  obtain ⟨res2, tr2⟩ := y2
                  rw [hb2] at h
                  simp only [Option.map_some'] at h
                  rw [Option.some_inj, Prod.mk.injEq] at h
                  obtain ⟨h1, h2⟩ := h
                  subst h1
                  obtain ⟨hmono, hdeps⟩ := ih r rest _ _ _ rio2 g2 p2 tr2 hb2
                  have hg0 : ∀ k, k ∈ dict_keys g0 → k ∈ dict_keys g2 := by
                    intro k hk
                    apply hmono
                    by_cases hdO : gD.isEmpty
                    · rw [if_neg (by simp [hdO])]
                      exact hk
                    · rw [if_pos (by simp [hdO])]
                      exact (mem_dict_keys_dict_update g0 gD k).2 (Or.inl hk)
                  refine ⟨hg0, ?_⟩
                  intro d hd hfunc rd hrd
                  rcases List.mem_cons.1 hd with rfl | hd2
                  · rw [hreg, Option.some_inj] at hrd
                    subst hrd
                    refine ⟨f, gD, trD, by omega,
                      (build_graph_eq_step env f depRule gD trD).2 ⟨rioD, pD, hb⟩, ?_⟩
                    intro k hk
                    have hne : ¬gD.isEmpty := by
                      cases hgd : gD with
                      | nil => rw [hgd] at hk; simp [dict_keys] at hk
                      | cons a l2 => simp [hgd]
                    apply hmono
                    rw [if_pos (by simp [hne])]
                    exact (mem_dict_keys_dict_update g0 gD k).2 (Or.inr hk)
                  · obtain ⟨fd, gd, trd, hlt, hbg, hkeys⟩ := hdeps d hd2 hfunc rd hrd
                    exact ⟨fd, gd, trd, by omega, hbg, hkeys⟩
        | none =>
          rw [hreg] at h
          dsimp only at h
          by_cases hex : pathExists env.fs q
          · rw [if_pos hex] at h
            cases hc : compare_timestamps env r.target (.path q) with
            | error e => rw [hc] at h; simp at h
            | ok b =>
              rw [hc] at h
              dsimp only at h
              obtain ⟨hmono, hdeps⟩ := ih r rest (rio || b) g0 p0 rio2 g2 p2 tr h
              refine ⟨hmono, ?_⟩
              intro d hd hfunc rd hrd
              rcases List.mem_cons.1 hd with rfl | hd2
              · rw [hreg] at hrd
                exact absurd hrd (by simp)
              · obtain ⟨fd, gd, trd, hlt, hbg, hkeys⟩ := hdeps d hd2 hfunc rd hrd
                exact ⟨fd, gd, trd, by omega, hbg, hkeys⟩
          · rw [if_neg hex] at h
            simp at h
      | phony nm =>
        simp only [build_step] at h
        cases hreg : env.map_target_rule (format_dep (Dep.phony nm)) with
        | some depRule =>
          rw [hreg] at h
          dsimp only at h
          cases hb : build_step env f (.rule depRule) with
          | none => rw [hb] at h; simp at h
          | some y =>
            obtain ⟨res, trD⟩ := y
            rw [hb] at h
            cases res with
            | error e => simp at h
            | ok v =>
              obtain ⟨rioD, gD, pD⟩ := v
              dsimp only at h
              cases hc : compare_timestamps env r.target depRule.target.asDep with
              | error e => rw [hc] at h; simp at h
              | ok b =>
                rw [hc] at h
                dsimp only at h
                cases hb2 : build_step env f (.deps r rest ((rio || !gD.isEmpty) || b)
                    (if !gD.isEmpty then dict_update g0 gD else g0)
                    (if !gD.isEmpty then set_add p0 (format_target depRule.target) else p0)) with
                | none => rw [hb2] at h; simp at h
                | some y2 =>
                  obtain ⟨res2, tr2⟩ := y2
                  rw [hb2] at h
                  simp only [Option.map_some'] at h
                  rw [Option.some_inj, Prod.mk.injEq] at h
                  obtain ⟨h1, h2⟩ := h
                  subst h1
                  obtain ⟨hmono, hdeps⟩ := ih r rest _ _ _ rio2 g2 p2 tr2 hb2
                  have hg0 : ∀ k, k ∈ dict_keys g0 → k ∈ dict_keys g2 := by
                    intro k hk
                    apply hmono
                    by_cases hdO : gD.isEmpty
                    · rw [if_neg (by simp [hdO])]
                      exact hk
                    · rw [if_pos (by simp [hdO])]
                      exact (mem_dict_keys_dict_update g0 gD k).2 (Or.inl hk)
                  refine ⟨hg0, ?_⟩
                  intro d hd hfunc rd hrd
                  rcases List.mem_cons.1 hd with rfl | hd2
                  · rw [hreg, Option.some_inj] at hrd
                    subst hrd
                    refine ⟨f, gD, trD, by omega,
                      (build_graph_eq_step env f depRule gD trD).2 ⟨rioD, pD, hb⟩, ?_⟩
                    intro k hk
                    have hne : ¬gD.isEmpty := by
                      cases hgd : gD with
                      | nil => rw [hgd] at hk; simp [dict_keys] at hk
                      | cons a l2 => simp [hgd]
                    apply hmono
                    rw [if_pos (by simp [hne])]
                    exact (mem_dict_keys_dict_update g0 gD k).2 (Or.inr hk)
                  · obtain ⟨fd, gd, trd, hlt, hbg, hkeys⟩ := hdeps d hd2 hfunc rd hrd
                    exact ⟨fd, gd, trd, by omega, hbg, hkeys⟩
        | none =>
          rw [hreg] at h
          dsimp only at h
          simp at h

/-!  Claim C5: a phony rule is always included and its dependency
subgraphs are merged.  -/

/-- C5: for every rule with a phony target whose resolution succeeds, the
returned graph always contains that rule as a key, whatever the freshness
of its dependencies; and the non-predicate dependencies are still
recursively resolved: every dependency owned by a registry rule was itself
resolved (with smaller fuel) and the keys of its outdated subgraph are all
merged into the returned graph. -/
theorem c5_phony_always_included (env : ResolveEnv) (fuel : Nat) (r : Rule) (nm : String)
    (g : Graph) (tr : List Nat)
    (ht : r.target = .phony nm)
    (h : build_graph env fuel r = some (.ok g, tr)) :
    nm ∈ dict_keys g
    ∧ ∀ d ∈ r.depsList, (∀ i, d ≠ .func i) →
        ∀ rd, env.map_target_rule (format_dep d) = some rd →
          ∃ fd gd trd, fd < fuel ∧ build_graph env fd rd = some (.ok gd, trd)
            ∧ ∀ k, k ∈ dict_keys gd → k ∈ dict_keys g := by
  obtain ⟨rio, preds, hstep⟩ := (build_graph_eq_step env fuel r g tr).1 h
  cases fuel with
  | zero => simp [build_step] at hstep
  | succ f =>
    obtain ⟨gL, hloop, rfl⟩ := build_rule_graph_shape env f r rio g preds tr hstep
    have hrio : rio = true := by
      apply (deps_loop_rio env f r r.depsList (target_outdated0 env r.target) [] []
        rio gL preds tr hloop).1
      rw [ht]
      rfl
    subst hrio
    simp only [if_true, reduceIte]
    have hfmt : format_target r.target = nm := by rw [ht]; rfl
    obtain ⟨hmono, hdeps⟩ := deps_loop_subgraphs env f r r.depsList
      (target_outdated0 env r.target) [] [] true gL preds tr hloop
    constructor
    · rw [← hfmt]
      exact self_mem_dict_keys_dict_set gL (format_target r.target) preds
    · intro d hd hfunc rd hrd
      obtain ⟨fd, gd, trd, hlt, hbg, hkeys⟩ := hdeps d hd hfunc rd hrd
      refine ⟨fd, gd, trd, by omega, hbg, ?_⟩
      intro k hk
      exact (mem_dict_keys_dict_set gL (format_target r.target) k preds).2
        (Or.inl (hkeys k hk))

/-- Rule t of the C5 witness: phony target with two rule dependencies. -/
def c5_ruleT : Rule := { target := .phony "t", deps := some [.path "a", .path "b"] }

/-- Rule of the missing path a of the C5 witness. -/
def c5_ruleA : Rule := { target := .path "a" }

/-- Registry of the C5 witness: a is missing (outdated), b exists and is
up to date. -/
def c5_env : ResolveEnv :=
  ⟨(fun k =>
      if k == "t" then some c5_ruleT
      else if k == "a" then some c5_ruleA
      else if k == "b" then some { target := .path "b" }
      else none),
   (fun p => if p == "b" then some 5000000000 else none), (fun _ => false)⟩

/-- Graph returned on the C5 witness registry. -/
def c5_graph : Graph := [("a", []), ("t", ["a"])]

/-- Witness for C5: the phony rule t is a key of the resolved graph, and
the subgraph of its outdated dependency a is merged into it. -/
theorem c5_witness :
    build_graph c5_env 10 c5_ruleT = some (.ok c5_graph, [])
    ∧ "t" ∈ dict_keys c5_graph
    ∧ ∃ fd gd trd, fd < 10 ∧ build_graph c5_env fd c5_ruleA = some (.ok gd, trd)
        ∧ ∀ k, k ∈ dict_keys gd → k ∈ dict_keys c5_graph := by
  have h := c5_phony_always_included c5_env 10 c5_ruleT "t" c5_graph [] rfl rfl
  exact ⟨rfl, h.1,
    h.2 (.path "a") (by decide) (fun i hx => Dep.noConfusion hx) c5_ruleA rfl⟩

/-!  Claim C3: timestamp staleness for path targets.  -/

theorem compare_timestamps_path (env : ResolveEnv) (pt q : String) (nt nq : Nat)
    (ht : env.fs pt = some nt) (hq : env.fs q = some nq) :
    compare_timestamps env (.path pt) (.path q)
      = .ok (decide (nq / 1000000000 > nt / 1000000000)) := by
  simp [compare_timestamps, pathExists, ht, hq, get_path_modified_time]

/-- A dependency that contributes nothing to outdatedness except possibly
its timestamp: a predicate callable returning False, or an existing path
that either is the target of no rule, or is the path target of a rule that
is itself not outdated (its resolution returns the empty graph). -/
def dep_inert (env : ResolveEnv) (d : Dep) : Prop :=
  (∃ i, d = .func i ∧ env.funcResult i = false)
  ∨ (∃ q, d = .path q ∧ (env.fs q).isSome = true ∧
      (env.map_target_rule q = none
       ∨ ∃ r2 fd trd, env.map_target_rule q = some r2 ∧ r2.target = .path q ∧
           build_graph env fd r2 = some (.ok [], trd)))

/-- The timestamp of a path dependency is strictly newer than the target
time nt, on the floored-seconds timestamps the resolver compares. -/
def dep_newer (env : ResolveEnv) (nt : Nat) : Dep → Bool
  | .path q =>
    match env.fs q with
    | some nd => decide (nd / 1000000000 > nt / 1000000000)
    | none => false
  | _ => false

theorem deps_loop_inert (env : ResolveEnv) (r : Rule) (pt : String) (nt : Nat)
    (ht : r.target = .path pt) (hfs : env.fs pt = some nt) :
    ∀ l, (∀ d ∈ l, dep_inert env d) → ∀ rio g p, ∃ F, ∀ fuel, F ≤ fuel → ∃ tr,
      build_step env fuel (.deps r l rio g p)
        = some (.ok (rio || l.any (dep_newer env nt), g, p), tr) := by
  intro l
  induction l with
  | nil =>
    intro _ rio g p
    refine ⟨1, fun fuel hf => ?_⟩
    obtain ⟨f, rfl⟩ : ∃ f, fuel = f + 1 := ⟨fuel - 1, by omega⟩
    exact ⟨[], by simp [build_step]⟩
  | cons d rest ih =>
    intro hin rio g p
    have hd := hin d (List.mem_cons_self d rest)
    have hrest : ∀ d2 ∈ rest, dep_inert env d2 :=
      fun d2 h2 => hin d2 (List.mem_cons_of_mem d h2)
    rcases hd with ⟨i, rfl, hfr⟩ | ⟨q, rfl, hex, hcase⟩
    · obtain ⟨F, hF⟩ := ih hrest (rio || env.funcResult i) g p
      refine ⟨F + 1, fun fuel hf => ?_⟩
      obtain ⟨f, rfl⟩ : ∃ f, fuel = f + 1 := ⟨fuel - 1, by omega⟩
      obtain ⟨tr, htr⟩ := hF f (by omega)
      refine ⟨i :: tr, ?_⟩
      simp only [build_step]
      rw [htr]
      simp [hfr, dep_newer]
    · obtain ⟨nq, hnq⟩ := Option.isSome_iff_exists.1 hex
      have hnew : dep_newer env nt (.path q) = decide (nq / 1000000000 > nt / 1000000000) := by
        simp [dep_newer, hnq]
      rcases hcase with hnone | ⟨r2, fd, trd, hr2, ht2, hbg⟩
      · obtain ⟨F, hF⟩ := ih hrest (rio || dep_newer env nt (.path q)) g p
        refine ⟨F + 1, fun fuel hf => ?_⟩
        obtain ⟨f, rfl⟩ : ∃ f, fuel = f + 1 := ⟨fuel - 1, by omega⟩
        obtain ⟨tr, htr⟩ := hF f (by omega)
        refine ⟨tr, ?_⟩
        simp only [build_step]
        rw [show format_dep (Dep.path q) = q from rfl, hnone]
        dsimp only
        rw [if_pos (show pathExists env.fs q = true from hex)]
        rw [ht, compare_timestamps_path env pt q nt nq hfs hnq]
        dsimp only
        rw [← hnew, htr]
        simp [List.any_cons, Bool.or_assoc]
      · obtain ⟨rio2, p2, hstep2⟩ := (build_graph_eq_step env fd r2 [] trd).1 hbg
        obtain ⟨F, hF⟩ := ih hrest (rio || dep_newer env nt (.path q)) g p
        refine ⟨F + fd + 1, fun fuel hf => ?_⟩
        obtain ⟨f, rfl⟩ : ∃ f, fuel = f + 1 := ⟨fuel - 1, by omega⟩
        obtain ⟨tr, htr⟩ := hF f (by omega)
        have hstep2f : build_step env f (.rule r2) = some (.ok (rio2, [], p2), trd) :=
          build_step_mono env fd f _ _ (by omega) hstep2
        refine ⟨trd ++ tr, ?_⟩
        simp only [build_step]
        rw [show format_dep (Dep.path q) = q from rfl, hr2]
        dsimp only
        rw [hstep2f]
        dsimp only
        rw [ht, ht2]
        rw [show (Target.path q).asDep = Dep.path q from rfl]
        rw [compare_timestamps_path env pt q nt nq hfs hnq]
        dsimp only
        rw [← hnew]
        simp only [List.isEmpty_nil, Bool.not_true, Bool.or_false, Bool.false_eq_true, reduceIte]
        rw [htr]
        simp [List.any_cons, Bool.or_assoc]

/-- C3: a rule R with an existing path target, all of whose dependencies
are inert apart from their timestamps (predicates returning False, and
existing path dependencies whose owning rule, if any, targets that path
and is itself not outdated), resolves — with enough fuel — to the graph
containing exactly R when some dependency timestamp is strictly newer than
the target timestamp, and to the empty graph otherwise: R is outdated iff
a dependency is strictly newer, and a rule whose target is newer than all
its path dependencies is excluded from the returned graph. -/
theorem c3_outdated_iff_dep_newer (env : ResolveEnv) (r : Rule) (pt : String) (nt : Nat)
    (ht : r.target = .path pt) (hfs : env.fs pt = some nt)
    (hin : ∀ d ∈ r.depsList, dep_inert env d) :
    ∃ F, ∀ fuel, F ≤ fuel → ∃ tr,
      build_graph env fuel r
        = some (.ok (if r.depsList.any (dep_newer env nt) then [(pt, [])] else []), tr) := by
  obtain ⟨F, hF⟩ := deps_loop_inert env r pt nt ht hfs r.depsList hin
    (target_outdated0 env r.target) [] []
  refine ⟨F + 1, fun fuel hf => ?_⟩
  obtain ⟨f, rfl⟩ : ∃ f, fuel = f + 1 := ⟨fuel - 1, by omega⟩
  obtain ⟨tr, htr⟩ := hF f (by omega)
  have hrio0 : target_outdated0 env r.target = false := by
    rw [ht]
    simp [target_outdated0, pathExists, hfs]
  rw [hrio0] at htr
  refine ⟨tr, ?_⟩
  unfold build_graph
  simp only [build_step]
  rw [hrio0, htr]
  dsimp only
  rw [ht]
  cases hany : r.depsList.any (dep_newer env nt) with
  | false => simp
  | true => simp [dict_set, format_target]

/-- Rule of the C3 witness: path target b with one path dependency a. -/
def c3_rule : Rule := { target := .path "b", deps := some [.path "a"] }

/-- Environment where the dependency a is strictly newer than b on whole
seconds (7 versus 5). -/
def c3_env_newer : ResolveEnv :=
  ⟨(fun k => if k == "b" then some c3_rule else none),
   (fun p => if p == "b" then some 5000000000
             else if p == "a" then some 7123456789 else none),
   (fun _ => false)⟩

/-- Environment where the dependency a is older than b (3 versus 5). -/
def c3_env_older : ResolveEnv :=
  ⟨(fun k => if k == "b" then some c3_rule else none),
   (fun p => if p == "b" then some 5000000000
             else if p == "a" then some 3000000000 else none),
   (fun _ => false)⟩

/-- Witness for C3: with the newer dependency the rule is the single key
of the graph; with the older dependency the rule is excluded (empty
graph). -/
theorem c3_witness :
    (∃ F, ∀ fuel, F ≤ fuel → ∃ tr,
      build_graph c3_env_newer fuel c3_rule = some (.ok [("b", [])], tr))
    ∧ build_graph c3_env_newer 3 c3_rule = some (.ok [("b", [])], [])
    ∧ (∃ F, ∀ fuel, F ≤ fuel → ∃ tr,
      build_graph c3_env_older fuel c3_rule = some (.ok [], tr))
    ∧ build_graph c3_env_older 3 c3_rule = some (.ok [], []) := by
  refine ⟨?_, rfl, ?_, rfl⟩
  · have h := c3_outdated_iff_dep_newer c3_env_newer c3_rule "b" 5000000000 rfl rfl ?_
    · exact h
    · intro d hd
      have hda : d = Dep.path "a" := by
        simpa [c3_rule, Rule.depsList] using hd
      subst hda
      exact Or.inr ⟨"a", rfl, rfl, Or.inl rfl⟩
  · have h := c3_outdated_iff_dep_newer c3_env_older c3_rule "b" 5000000000 rfl rfl ?_
    · exact h
    · intro d hd
      have hda : d = Dep.path "a" := by
        simpa [c3_rule, Rule.depsList] using hd
      subst hda
      exact Or.inr ⟨"a", rfl, rfl, Or.inl rfl⟩

/-!  Claim C4: unresolvable dependency errors.  -/

theorem compare_timestamps_ok (env : ResolveEnv) (tgt : Target) (q : String) (nq : Nat)
    (hq : env.fs q = some nq) :
    ∃ b, compare_timestamps env tgt (.path q) = .ok b := by
  cases tgt with
  | phony nm => exact ⟨false, rfl⟩
  | path pt =>
    cases hpt : env.fs pt with
    | none => exact ⟨false, by simp [compare_timestamps, pathExists, hpt]⟩
    | some ntt =>
      exact ⟨decide (nq / 1000000000 > ntt / 1000000000),
        by simp [compare_timestamps, pathExists, hpt, hq, get_path_modified_time]⟩

theorem deps_loop_error (env : ResolveEnv) (r : Rule) (d : Dep) (post : List Dep) (E : RErr)
    (hnoRule : env.map_target_rule (format_dep d) = none)
    (hErr : (∃ nm, d = .phony nm ∧ E = .typeError)
          ∨ (∃ q, d = .path q ∧ env.fs q = none ∧ E = .runtimeError)) :
    ∀ pre fuel rio g p acc tr,
      build_step env fuel (.deps r pre rio g p) = some (.ok acc, tr) →
      build_step env fuel (.deps r (pre ++ d :: post) rio g p) = some (.error E, tr) := by
  intro pre
  induction pre with
  | nil =>
    intro fuel rio g p acc tr h
    cases fuel with
    | zero => simp [build_step] at h
    | succ f =>
      simp only [build_step, Option.some_inj, Prod.mk.injEq] at h
      obtain ⟨h1, h2⟩ := h
      subst h2
      simp only [List.nil_append]
      rcases hErr with ⟨nm, rfl, rfl⟩ | ⟨q, rfl, hq, rfl⟩
      · simp only [build_step]
        rw [hnoRule]
      · simp only [build_step]
        rw [hnoRule]
        dsimp only
        rw [if_neg (by simp [pathExists, hq])]
  | cons a rest ih =>
    intro fuel rio g p acc tr h
    cases fuel with
    | zero => simp [build_step] at h
    | succ f =>
      cases a with
      | func i =>
        simp only [List.cons_append, build_step] at h ⊢
        cases hb : build_step env f (.deps r rest (rio || env.funcResult i) g p) with
        | none => rw [hb] at h; simp at h
        | some y =>
          obtain ⟨res, tr0⟩ := y
          rw [hb] at h
          simp only [Option.map_some'] at h
          rw [Option.some_inj, Prod.mk.injEq] at h
          obtain ⟨h1, h2⟩ := h
          subst h2
          cases res with
          | error e => simp at h1
          | ok acc2 =>
            have hih := ih f (rio || env.funcResult i) g p acc2 tr0 hb
            simp only [List.append_eq]
            rw [hih]
            rfl
      | path q =>
        simp only [List.cons_append, build_step] at h ⊢
        cases hreg : env.map_target_rule (format_dep (Dep.path q)) with
        | some depRule =>
          rw [hreg] at h
          dsimp only at h
          cases hb : build_step env f (.rule depRule) with
          | none => rw [hb] at h; simp at h
          | some y =>
            obtain ⟨res, trD⟩ := y
            rw [hb] at h
            cases res with
            | error e => simp at h
            | ok v =>
              obtain ⟨rioD, gD, pD⟩ := v
              dsimp only at h ⊢
              cases hc : compare_timestamps env r.target depRule.target.asDep with
              | error e => rw [hc] at h; simp at h
              | ok b =>
                rw [hc] at h
                dsimp only at h ⊢
                cases hb2 : build_step env f (.deps r rest ((rio || !gD.isEmpty) || b)
                    (if !gD.isEmpty then dict_update g gD else g)
                    (if !gD.isEmpty then set_add p (format_target depRule.target) else p)) with
                | none => rw [hb2] at h; simp at h
                | some y2 =>
                  obtain ⟨res2, tr2⟩ := y2
                  rw [hb2] at h
                  simp only [Option.map_some'] at h
                  rw [Option.some_inj, Prod.mk.injEq] at h
                  obtain ⟨h1, h2⟩ := h
                  subst h2
                  cases res2 with
                  | error e => simp at h1
                  | ok acc2 =>
                    have hih := ih f _ _ _ acc2 tr2 hb2
                    rw [hb]
                    dsimp only
                    simp only [List.append_eq]
                    rw [hih]
                    rfl
        | none =>
          rw [hreg] at h
          dsimp only at h ⊢
          by_cases hex : pathExists env.fs q
          · rw [if_pos hex] at h ⊢
            cases hc : compare_timestamps env r.target (.path q) with
            | error e => rw [hc] at h; simp at h
            | ok b =>
              rw [hc] at h
              dsimp only at h ⊢
              simp only [List.append_eq]
              exact ih f (rio || b) g p acc tr h
          · rw [if_neg hex] at h
            simp at h
      | phony nm =>
        simp only [List.cons_append, build_step] at h ⊢
        cases hreg : env.map_target_rule (format_dep (Dep.phony nm)) with
        | some depRule =>
          rw [hreg] at h
          dsimp only at h
          cases hb : build_step env f (.rule depRule) with
          | none => rw [hb] at h; simp at h
          | some y =>
            obtain ⟨res, trD⟩ := y
            rw [hb] at h
            cases res with
            | error e => simp at h
            | ok v =>
              obtain ⟨rioD, gD, pD⟩ := v
              dsimp only at h ⊢
              cases hc : compare_timestamps env r.target depRule.target.asDep with
              | error e => rw [hc] at h; simp at h
              | ok b =>
                rw [hc] at h
                dsimp only at h ⊢
                cases hb2 : build_step env f (.deps r rest ((rio || !gD.isEmpty) || b)
                    (if !gD.isEmpty then dict_update g gD else g)
                    (if !gD.isEmpty then set_add p (format_target depRule.target) else p)) with
                | none => rw [hb2] at h; simp at h
                | some y2 =>
                  obtain ⟨res2, tr2⟩ := y2
                  rw [hb2] at h
                  simp only [Option.map_some'] at h
                  rw [Option.some_inj, Prod.mk.injEq] at h
                  obtain ⟨h1, h2⟩ := h
                  subst h2
                  cases res2 with
                  | error e => simp at h1
                  | ok acc2 =>
                    have hih := ih f _ _ _ acc2 tr2 hb2
                    rw [hb]
                    dsimp only
                    simp only [List.append_eq]
                    rw [hih]
                    rfl
        | none =>
          rw [hreg] at h
          dsimp only at h
          simp at h

/-- C4: a non-predicate dependency reached during resolution (after the
preceding dependencies processed without error) that has no owning rule in
the registry makes build_graph raise — TypeError for a Phony value,
RuntimeError for a path that does not exist — aborting with no graph
returned; whereas an ownerless path dependency that exists on disk raises
nothing: its timestamp comparison succeeds and processing proceeds to the
remaining dependencies. -/
theorem c4_unresolvable_dependency (env : ResolveEnv) (r : Rule) (pre post : List Dep)
    (d : Dep) (fuel : Nat) (acc : Bool × Graph × List String) (tr : List Nat)
    (hdeps : r.depsList = pre ++ d :: post)
    (hpre : build_step env fuel (.deps r pre (target_outdated0 env r.target) [] [])
      = some (.ok acc, tr))
    (hnoRule : env.map_target_rule (format_dep d) = none) :
    ((∃ nm, d = .phony nm) → build_graph env (fuel + 1) r = some (.error .typeError, tr))
    ∧ (∀ q, d = .path q → env.fs q = none →
        build_graph env (fuel + 1) r = some (.error .runtimeError, tr))
    ∧ (∀ q nq, d = .path q → env.fs q = some nq →
        ∃ b, compare_timestamps env r.target (.path q) = .ok b
          ∧ ∀ f2 rio g p, build_step env (f2 + 1) (.deps r (d :: post) rio g p)
              = build_step env f2 (.deps r post (rio || b) g p)) := by
  refine ⟨?_, ?_, ?_⟩
  · rintro ⟨nm, rfl⟩
    have hstep := deps_loop_error env r (.phony nm) post .typeError hnoRule
      (Or.inl ⟨nm, rfl, rfl⟩) pre fuel (target_outdated0 env r.target) [] [] acc tr hpre
    unfold build_graph
    simp only [build_step]
    rw [← hdeps] at hstep
    rw [hstep]
  · rintro q rfl hq
    have hstep := deps_loop_error env r (.path q) post .runtimeError hnoRule
      (Or.inr ⟨q, rfl, hq, rfl⟩) pre fuel (target_outdated0 env r.target) [] [] acc tr hpre
    unfold build_graph
    simp only [build_step]
    rw [← hdeps] at hstep
    rw [hstep]
  · rintro q nq rfl hq
    obtain ⟨b, hb⟩ := compare_timestamps_ok env r.target q nq hq
    refine ⟨b, hb, ?_⟩
    intro f2 rio g p
    simp only [build_step]
    rw [hnoRule]
    dsimp only
    rw [if_pos (by simp [pathExists, hq])]
    rw [hb]

/-- Rule of the C4 missing-path scenario: depends on a path that exists
nowhere and is no target. -/
def c4_rule : Rule := { target := .path "a", deps := some [.path "missing"] }

/-- Environment of the C4 missing-path scenario (scenario 5 of the spec). -/
def c4_env : ResolveEnv :=
  ⟨(fun k => if k == "a" then some c4_rule else none), (fun _ => none), (fun _ => false)⟩

/-- Rule of the C4 phony scenario: depends on a phony name of no rule. -/
def c4_rule_phony : Rule := { target := .path "a", deps := some [.phony "ghost"] }

/-- Environment of the C4 phony scenario. -/
def c4_env_phony : ResolveEnv :=
  ⟨(fun k => if k == "a" then some c4_rule_phony else none), (fun _ => none), (fun _ => false)⟩

/-- Rule of the C4 leaf scenario: depends on an existing ownerless path. -/
def c4_rule_leaf : Rule := { target := .path "a", deps := some [.path "src"] }

/-- Environment of the C4 leaf scenario: src exists with no owning rule. -/
def c4_env_leaf : ResolveEnv :=
  ⟨(fun k => if k == "a" then some c4_rule_leaf else none),
   (fun p => if p == "src" then some 1000000000 else none), (fun _ => false)⟩

/-- Witness for C4: the missing ownerless path raises RuntimeError, the
ownerless phony raises TypeError, and the existing ownerless path is
accepted as a leaf with a successful timestamp comparison. -/
theorem c4_witness :
    build_graph c4_env 2 c4_rule = some (.error .runtimeError, [])
    ∧ build_graph c4_env_phony 2 c4_rule_phony = some (.error .typeError, [])
    ∧ ∃ b, compare_timestamps c4_env_leaf c4_rule_leaf.target (.path "src") = .ok b
        ∧ ∀ f2 rio g p,
            build_step c4_env_leaf (f2 + 1) (.deps c4_rule_leaf [.path "src"] rio g p)
              = build_step c4_env_leaf f2 (.deps c4_rule_leaf [] (rio || b) g p) := by
  refine ⟨?_, ?_, ?_⟩
  · exact (c4_unresolvable_dependency c4_env c4_rule [] [] (.path "missing") 1
      (true, [], []) [] rfl rfl rfl).2.1 "missing" rfl rfl
  · exact (c4_unresolvable_dependency c4_env_phony c4_rule_phony [] [] (.phony "ghost") 1
      (true, [], []) [] rfl rfl rfl).1 ⟨"ghost", rfl⟩
  · exact (c4_unresolvable_dependency c4_env_leaf c4_rule_leaf [] [] (.path "src") 1
      (true, [], []) [] rfl rfl rfl).2.2 "src" 1000000000 rfl rfl

/-!  Claim C7: a nonzero exit status of a string subrecipe is fatal.  -/

/-- C7: for every rule and every string subrecipe of its recipe, run_rule
with dry_run false treats a shell exit status greater than zero as fatal
(the command has run, RuntimeError is raised, the remaining subrecipes of
the rule do not run), while a zero exit status raises nothing and
execution proceeds to the remaining subrecipes.  Shell exit statuses are
naturals, so greater than zero is exactly nonzero. -/
theorem c7_nonzero_exit_fatal (env : RunEnv) (rule : Rule) (pre post : List SubRecipe)
    (c : String) (os : Bool)
    (hrec : rule.recipe = some (pre ++ .cmd c :: post))
    (hpre : (run_subrecipes env false pre).2 = none) :
    (0 < env.shell c →
      run_rule env rule false os =
        ((run_subrecipes env false pre).1 ++ [.ran c], some .runtimeError))
    ∧ (env.shell c = 0 →
      run_rule env rule false os =
        ((run_subrecipes env false pre).1 ++ .ran c :: (run_subrecipes env false post).1,
         (run_subrecipes env false post).2)) := by
  have hrun : run_rule env rule false os = run_subrecipes env false (pre ++ .cmd c :: post) := by
    unfold run_rule
    rw [hrec]
  constructor
  · intro hc
    rw [hrun, run_subrecipes_ok_append env false pre (.cmd c :: post) hpre]
    simp [run_subrecipes, hc]
  · intro hc
    rw [hrun, run_subrecipes_ok_append env false pre (.cmd c :: post) hpre]
    simp [run_subrecipes, hc]

/-- Shell environment of the C7 witness: the command boom exits 1, every
other command exits 0. -/
def c7_renv : RunEnv :=
  ⟨(fun c => if c == "boom" then 1 else 0), (fun _ => false)⟩

/-- Rule of the C7 witness: three shell commands, the second fails. -/
def c7_rule : Rule :=
  { target := .phony "w", recipe := some [.cmd "ok", .cmd "boom", .cmd "after"] }

/-- Witness for C7: the concrete rule runs ok, runs boom, raises and never
runs after. -/
theorem c7_witness :
    run_rule c7_renv c7_rule false false = ([.ran "ok", .ran "boom"], some .runtimeError) := by
  have h := (c7_nonzero_exit_fatal c7_renv c7_rule [.cmd "ok"] [.cmd "after"] "boom" false
    rfl rfl).1 (by decide)
  rw [h]
  rfl

/-!  Claim C8: dry run prints and never executes.  -/

/-- C8: run_rule with dry_run true executes nothing and raises nothing:
its result is exactly one printed line per subrecipe in declaration order
(the command text for a string subrecipe, the function name followed by
parentheses for a callable), and every produced event is a print. -/
theorem c8_dry_run_prints_only (env : RunEnv) (rule : Rule) (os : Bool) :
    run_rule env rule true os = ((rule.recipe.getD []).map dry_run_print, none)
    ∧ ∀ e ∈ (run_rule env rule true os).1, ∃ s, e = .printed s := by
  have h1 : run_rule env rule true os = ((rule.recipe.getD []).map dry_run_print, none) := by
    unfold run_rule
    cases hr : rule.recipe with
    | none => simp
    | some rs => simp [run_subrecipes_dry]
  refine ⟨h1, ?_⟩
  rw [h1]
  intro e he
  simp only [List.mem_map] at he
  obtain ⟨a, _, ha⟩ := he
  cases a with
  | cmd c => exact ⟨c, by rw [← ha]; rfl⟩
  | call f => exact ⟨f ++ "()", by rw [← ha]; rfl⟩

/-!
Claim C10 concerns the whole-second flooring of mtimes.  The Python
expression st_mtime_ns // 1e9 has a float right operand, so CPython first
converts the integer st_mtime_ns to binary64 — rounding to the nearest
representable double, ties to even, i.e. rounding the integer at 53
significant bits — and only then floor-divides.  At current-epoch mtimes
(between 2^59 and 2^61 ns) doubles are spaced 128 or 256 ns apart, so an
mtime in the top half-spacing of a whole second rounds up across the
second boundary before the floor is taken.  The subsequent division by
the exactly representable double 1e9 cannot cross a boundary on its own:
the rounded integer is a multiple of the double spacing 2^e while whole
seconds are multiples of 1e9 (divisible by 2^9, and 2^e ≤ 2^8 for 64-bit
mtimes), so a quotient strictly below an integer k stays at least
2^e / 1e9 below k, which exceeds half an ulp of the quotient at these
magnitudes.  The faithful seconds value is therefore the exact floor of
the 53-bit rounding of st_mtime_ns over 1e9, modelled below with exact
integer arithmetic.
-/

/-- Number of binary digits, with an explicit structural recursion bound
(128 covers every 64-bit st_mtime_ns value). -/
def bit_length_aux : Nat → Nat → Nat
  | 0, _ => 0
  | f + 1, n => if n = 0 then 0 else bit_length_aux f (n / 2) + 1

/-- Rounding of a natural number to the nearest IEEE binary64 value
(CPython float(int)): round to nearest at 53 significant bits, ties to
even, computed with exact integer arithmetic. -/
def float_round_53 (n : Nat) : Nat :=
  if bit_length_aux 128 n ≤ 53 then n
  else
    let e := bit_length_aux 128 n - 53
    let m := n / 2 ^ e
    let r := n % 2 ^ e
    if 2 * r > 2 ^ e || (2 * r == 2 ^ e && m % 2 == 1) then (m + 1) * 2 ^ e else m * 2 ^ e

/-- Timestamp in whole seconds as the code actually computes it (utils.py
get_path_modified_time): the float conversion of st_mtime_ns happens
before the floor division by 1e9. -/
def get_path_modified_time_float (fs : String → Option Nat) (p : String) : Option Nat :=
  (fs p).map (fun ns => float_round_53 ns / 1000000000)

/-- Filesystem of the C10 counterexample: the target was modified at
999999999500000000 ns and the dependency at 999999999999999999 ns, both
inside whole second 999999999. -/
def c10_fs_boundary : String → Option Nat :=
  fun p => if p == "t" then some 999999999500000000
           else if p == "d" then some 999999999999999999 else none

/-- Counterexample to C10: the two raw mtimes lie in the same whole
second (both floor to 999999999 exactly), yet the code computes
timestamps 999999999 and 1000000000 — the dependency mtime sits in the
last 128 ns of the second, where the binary64 conversion rounds it up to
the next whole second — so the timestamps are not equal and the
dependency is considered strictly newer than the target. -/
theorem c10_counterexample :
    (999999999500000000 : Nat) / 1000000000 = 999999999999999999 / 1000000000
    ∧ get_path_modified_time_float c10_fs_boundary "t" = some 999999999
    ∧ get_path_modified_time_float c10_fs_boundary "d" = some 1000000000
    ∧ (999999999 : Nat) < 1000000000 := by
  refine ⟨by decide, by decide, by decide, by decide⟩

/-- C10 amended: the code timestamps equal the floor of the binary64
rounding of st_mtime_ns over 1e9; two modification times in the same
whole second yield equal timestamps — and the dependency is not
considered newer even when its raw mtime is strictly greater — provided
the rounding carries neither time across the whole-second boundary (only
mtimes in the last half-spacing of a second, at most 128 ns for 64-bit
times, are carried over). -/
theorem c10_amended_same_second_not_newer (fs : String → Option Nat) (pt pd : String)
    (nt nd : Nat)
    (ht : fs pt = some nt) (hd : fs pd = some nd)
    (hsec : nt / 1000000000 = nd / 1000000000)
    (hnt : float_round_53 nt / 1000000000 = nt / 1000000000)
    (hnd : float_round_53 nd / 1000000000 = nd / 1000000000)
    (hraw : nt < nd) :
    get_path_modified_time_float fs pd = get_path_modified_time_float fs pt
    ∧ ¬ (float_round_53 nd / 1000000000 > float_round_53 nt / 1000000000) := by
  constructor
  · simp only [get_path_modified_time_float, ht, hd, Option.map_some']
    rw [hnd, hnt, ← hsec]
  · rw [hnd, hnt, ← hsec]
    exact Nat.lt_irrefl _

/-- Filesystem of the amended C10 witness: two 2023-era mtimes 256 ns
apart in the same whole second, both exactly representable in binary64. -/
def c10_fs_modern : String → Option Nat :=
  fun p => if p == "t" then some 1700000000000000000
           else if p == "d" then some 1700000000000000256 else none

/-- Witness for the amended C10 at mtimes 1700000000000000000 ns and
1700000000000000256 ns: equal code timestamps, dependency not newer. -/
theorem c10_amended_witness :
    get_path_modified_time_float c10_fs_modern "d"
      = get_path_modified_time_float c10_fs_modern "t"
    ∧ ¬ (float_round_53 1700000000000000256 / 1000000000
          > float_round_53 1700000000000000000 / 1000000000) :=
  c10_amended_same_second_not_newer c10_fs_modern "t" "d"
    1700000000000000000 1700000000000000256 rfl rfl
    (by decide) (by decide) (by decide) (by decide)

/-!
Claim C1 concerns how often a dependency callable is invoked during one
resolver call.  In build_target_graph every visit of a rule invokes each
of its callable dependencies (rulesorter.py line 86), and nothing is
memoized: neither predicate results nor rule resolutions, so a callable
runs once per visit of a rule that references it — twice when two reached
rules share it, and also twice when its single referencing rule is
reached along two paths of a diamond, because the referencing rule itself
is then resolved twice.  The tag-file memoization cited from
dependency.py lives in DependencyFunction.__call__, which is used by the
Make/Ninja back ends; moreover that method returns None, so build_graph
could not combine its result with the |= operator.
-/

/-- Registry with one requested phony rule t whose two path dependencies a
and b are produced by two rules that share the same dependency callable i;
neither path exists, so both rules are reached. -/
def c1_two_rules_env (i : Nat) (fr : Nat → Bool) : ResolveEnv :=
  ⟨(fun k =>
      if k == "t" then some { target := .phony "t", deps := some [.path "a", .path "b"] }
      else if k == "a" then some { target := .path "a", deps := some [.func i] }
      else if k == "b" then some { target := .path "b", deps := some [.func i] }
      else none),
   (fun _ => none), fr⟩

/-- Counterexample to C1: in the two-rule registry (callable id 0, result
True), one resolver call invokes the shared dependency callable twice, not
once: the invocation trace is the two-element list 0, 0. -/
theorem c1_counterexample :
    build_target_graph (c1_two_rules_env 0 (fun _ => true)) 10 "t"
      = some (.ok [("a", []), ("b", []), ("t", ["a", "b"])], [0, 0])
    ∧ List.count 0 [0, 0] = 2 :=
  ⟨rfl, rfl⟩

/-- Contribution of one dependency of a visited rule to the invocation
trace of that visit: a predicate dependency contributes exactly its one
invocation; a dependency owned by a registry rule contributes exactly the
trace of a complete, independent resolution of that rule (the resolver
re-resolves it from scratch at every reference); an ownerless dependency
contributes nothing. -/
def dep_call_seg (env : ResolveEnv) (fuel : Nat) (d : Dep) (seg : List Nat) : Prop :=
  (∀ i, d = .func i → seg = [i])
  ∧ ((∀ i, d ≠ .func i) →
      (env.map_target_rule (format_dep d) = none → seg = [])
      ∧ ∀ rd, env.map_target_rule (format_dep d) = some rd →
          ∃ f2 g2, f2 < fuel ∧ build_graph env f2 rd = some (.ok g2, seg))

theorem dep_call_seg_mono (env : ResolveEnv) (f1 f2 : Nat) (d : Dep) (seg : List Nat)
    (hle : f1 ≤ f2) (h : dep_call_seg env f1 d seg) : dep_call_seg env f2 d seg := by
  refine ⟨h.1, fun hne => ⟨(h.2 hne).1, fun rd hrd => ?_⟩⟩
  obtain ⟨fx, gx, hlt, hbg⟩ := (h.2 hne).2 rd hrd
  exact ⟨fx, gx, by omega, hbg⟩

theorem deps_loop_call_segs (env : ResolveEnv) :
    ∀ fuel r l rio g p rio2 g2 p2 tr,
      build_step env fuel (.deps r l rio g p) = some (.ok (rio2, g2, p2), tr) →
      ∃ segs, tr = segs.flatten ∧ List.Forall₂ (dep_call_seg env fuel) l segs := by
  intro fuel
  induction fuel with
  | zero =>
    intro r l rio g p rio2 g2 p2 tr h
    simp [build_step] at h
  | succ f ih =>
    intro r l rio g p rio2 g2 p2 tr h
    cases l with
    | nil =>
      simp only [build_step, Option.some_inj, Prod.mk.injEq, Except.ok.injEq] at h
      obtain ⟨⟨h1, h2, h3⟩, h4⟩ := h
      subst h4
      exact ⟨[], rfl, List.Forall₂.nil⟩
    | cons dep rest =>
      cases dep with
      | func i =>
        simp only [build_step] at h
        cases hb : build_step env f (.deps r rest (rio || env.funcResult i) g p) with
        | none => rw [hb] at h; simp at h
        | some y =>
          obtain ⟨res, tr0⟩ := y
          rw [hb] at h
          simp only [Option.map_some'] at h
          rw [Option.some_inj, Prod.mk.injEq] at h
          obtain ⟨h1, h2⟩ := h
          subst h2
          cases res with
          | error e => simp at h1
          | ok v =>
            obtain ⟨segs0, hjoin, hF⟩ := ih r rest _ g p v.1 v.2.1 v.2.2 tr0
              (by rw [hb])
            refine ⟨[i] :: segs0, by rw [List.flatten_cons, ← hjoin]; rfl, ?_⟩
            refine List.Forall₂.cons ⟨fun j hj => by cases hj; rfl,
              fun hne => absurd rfl (hne i)⟩ ?_
            exact hF.imp (fun a b hab => dep_call_seg_mono env f (f + 1) a b (Nat.le_succ f) hab)
      | path q =>
        simp only [build_step] at h
        cases hreg : env.map_target_rule (format_dep (Dep.path q)) with
        | some depRule =>
          rw [hreg] at h
          dsimp only at h
          cases hb : build_step env f (.rule depRule) with
          | none => rw [hb] at h; simp at h
          | some y =>
            obtain ⟨res, trD⟩ := y
            rw [hb] at h
            cases res with
            | error e => simp at h
            | ok v =>
              obtain ⟨rioD, gD, pD⟩ := v
              dsimp only at h
              cases hc : compare_timestamps env r.target depRule.target.asDep with
              | error e => rw [hc] at h; simp at h
              | ok b =>
                rw [hc] at h
                dsimp only at h
                cases hb2 : build_step env f (.deps r rest ((rio || !gD.isEmpty) || b)
                    (if !gD.isEmpty then dict_update g gD else g)
                    (if !gD.isEmpty then set_add p (format_target depRule.target) else p)) with
                | none => rw [hb2] at h; simp at h
                | some y2 =>
                  obtain ⟨res2, tr2⟩ := y2
                  rw [hb2] at h
                  simp only [Option.map_some'] at h
                  rw [Option.some_inj, Prod.mk.injEq] at h
                  obtain ⟨h1, h2⟩ := h
                  subst h2
                  cases res2 with
                  | error e => simp at h1
                  | ok v2 =>
                    obtain ⟨segs0, hjoin, hF⟩ := ih r rest _ _ _ v2.1 v2.2.1 v2.2.2 tr2
                      (by rw [hb2])
                    refine ⟨trD :: segs0, by rw [List.flatten_cons, ← hjoin], ?_⟩
                    refine List.Forall₂.cons
                      ⟨fun j hj => Dep.noConfusion hj, fun hne => ⟨?_, ?_⟩⟩ ?_
                    · intro hnone
                      rw [hreg] at hnone
                      exact Option.noConfusion hnone
                    · intro rd hrd
                      rw [hreg, Option.some_inj] at hrd
                      subst hrd
                      exact ⟨f, gD, Nat.lt_succ_self f,
                        (build_graph_eq_step env f depRule gD trD).2 ⟨rioD, pD, hb⟩⟩
                    · exact hF.imp
                        (fun a b hab => dep_call_seg_mono env f (f + 1) a b (Nat.le_succ f) hab)
        | none =>
          rw [hreg] at h
          dsimp only at h
          by_cases hex : pathExists env.fs q
          · rw [if_pos hex] at h
            cases hc : compare_timestamps env r.target (.path q) with
            | error e => rw [hc] at h; simp at h
            | ok b =>
              rw [hc] at h
              dsimp only at h
              obtain ⟨segs0, hjoin, hF⟩ := ih r rest (rio || b) g p rio2 g2 p2 tr h
              refine ⟨[] :: segs0, by rw [List.flatten_cons, ← hjoin]; rfl, ?_⟩
              refine List.Forall₂.cons
                ⟨fun j hj => Dep.noConfusion hj, fun hne => ⟨fun _ => rfl, ?_⟩⟩ ?_
              · intro rd hrd
                rw [hreg] at hrd
                exact Option.noConfusion hrd
              · exact hF.imp
                  (fun a b hab => dep_call_seg_mono env f (f + 1) a b (Nat.le_succ f) hab)
          · rw [if_neg hex] at h
            simp at h
      | phony nm =>
        simp only [build_step] at h
        cases hreg : env.map_target_rule (format_dep (Dep.phony nm)) with
        | some depRule =>
          rw [hreg] at h
          dsimp only at h
          cases hb : build_step env f (.rule depRule) with
          | none => rw [hb] at h; simp at h
          | some y =>
            obtain ⟨res, trD⟩ := y
            rw [hb] at h
            cases res with
            | error e => simp at h
            | ok v =>
              obtain ⟨rioD, gD, pD⟩ := v
              dsimp only at h
              cases hc : compare_timestamps env r.target depRule.target.asDep with
              | error e => rw [hc] at h; simp at h
              | ok b =>
                rw [hc] at h
                dsimp only at h
                cases hb2 : build_step env f (.deps r rest ((rio || !gD.isEmpty) || b)
                    (if !gD.isEmpty then dict_update g gD else g)
                    (if !gD.isEmpty then set_add p (format_target depRule.target) else p)) with
                | none => rw [hb2] at h; simp at h
                | some y2 =>
                  obtain ⟨res2, tr2⟩ := y2
                  rw [hb2] at h
                  simp only [Option.map_some'] at h
                  rw [Option.some_inj, Prod.mk.injEq] at h
                  obtain ⟨h1, h2⟩ := h
                  subst h2
                  cases res2 with
                  | error e => simp at h1
                  | ok v2 =>
                    obtain ⟨segs0, hjoin, hF⟩ := ih r rest _ _ _ v2.1 v2.2.1 v2.2.2 tr2
                      (by rw [hb2])
                    refine ⟨trD :: segs0, by rw [List.flatten_cons, ← hjoin], ?_⟩
                    refine List.Forall₂.cons
                      ⟨fun j hj => Dep.noConfusion hj, fun hne => ⟨?_, ?_⟩⟩ ?_
                    · intro hnone
                      rw [hreg] at hnone
                      exact Option.noConfusion hnone
                    · intro rd hrd
                      rw [hreg, Option.some_inj] at hrd
                      subst hrd
                      exact ⟨f, gD, Nat.lt_succ_self f,
                        (build_graph_eq_step env f depRule gD trD).2 ⟨rioD, pD, hb⟩⟩
                    · exact hF.imp
                        (fun a b hab => dep_call_seg_mono env f (f + 1) a b (Nat.le_succ f) hab)
        | none =>
          rw [hreg] at h
          dsimp only at h
          simp at h

/-- C1 amended: every visit of a rule during resolution invokes each of
its predicate dependencies exactly once, and nothing is memoized: the
invocation trace of every successfully resolved rule decomposes into one
segment per dependency in declaration order — exactly the one-element
segment i for a predicate dependency i, the complete trace of an
independent resolution of the owning rule for a dependency owned by the
registry, and the empty segment for an ownerless dependency.  Hence a
predicate referenced by two reached rules, or by a single rule that is
itself resolved along two paths, is invoked once per visit, not once per
resolver call. -/
theorem c1_amended_once_per_visit (env : ResolveEnv) (fuel : Nat) (r : Rule)
    (rio : Bool) (g : Graph) (preds : List String) (tr : List Nat)
    (h : build_step env fuel (.rule r) = some (.ok (rio, g, preds), tr)) :
    ∃ segs, tr = segs.flatten ∧ List.Forall₂ (dep_call_seg env fuel) r.depsList segs := by
  cases fuel with
  | zero => simp [build_step] at h
  | succ f =>
    obtain ⟨gL, hloop, rfl⟩ := build_rule_graph_shape env f r rio g preds tr h
    obtain ⟨segs, hjoin, hF⟩ := deps_loop_call_segs env f r r.depsList
      (target_outdated0 env r.target) [] [] rio gL preds tr hloop
    exact ⟨segs, hjoin,
      hF.imp (fun a b hab => dep_call_seg_mono env f (f + 1) a b (Nat.le_succ f) hab)⟩

/-- Requested rule of the diamond registry of the C1 witness. -/
def c1_diamond_ruleT : Rule := { target := .phony "t", deps := some [.path "a", .path "b"] }

/-- Diamond registry: t depends on the rules of a and b, both of which
depend on the rule of c, whose only dependency is the callable 0; every
path is missing, so all rules are reached and c is visited twice. -/
def c1_diamond_env : ResolveEnv :=
  ⟨(fun k =>
      if k == "t" then some c1_diamond_ruleT
      else if k == "a" then some { target := .path "a", deps := some [.path "c"] }
      else if k == "b" then some { target := .path "b", deps := some [.path "c"] }
      else if k == "c" then some { target := .path "c", deps := some [.func 0] }
      else none),
   (fun _ => none), (fun _ => true)⟩

/-- Graph resolved on the diamond registry. -/
def c1_diamond_graph : Graph := [("c", []), ("a", ["c"]), ("b", ["c"]), ("t", ["a", "b"])]

/-- Witness for the amended C1: in the diamond the single referencing rule
c is visited once per path, so the callable runs twice (trace 0, 0), and
the trace of the requested rule decomposes per dependency as the amended
claim states. -/
theorem c1_witness :
    build_target_graph c1_diamond_env 10 "t" = some (.ok c1_diamond_graph, [0, 0])
    ∧ ∃ segs, ([0, 0] : List Nat) = segs.flatten
        ∧ List.Forall₂ (dep_call_seg c1_diamond_env 10) c1_diamond_ruleT.depsList segs :=
  ⟨rfl,
   c1_amended_once_per_visit c1_diamond_env 10 c1_diamond_ruleT true c1_diamond_graph
     ["a", "b"] [0, 0] rfl⟩

/-!
Claims C2 and C9 concern run_rules applied to a RuleSorter.  The
constructor of RuleSorter already calls prepare (rulesorter.py line 33)
and run_rules calls sorter.prepare() again as its first statement (run.py
line 79); graphlib rejects the second prepare with ValueError, so the
scheduler loop is never entered.
-/

theorem prepare_readyNodes_isSome (t t1 : TopoSorter) (h : t.prepare = .ok t1) :
    t1.readyNodes.isSome := by
  unfold TopoSorter.prepare at h
  split at h
  · exact absurd h (by simp)
  · split at h
    · exact absurd h (by simp)
    · cases h
      simp

/-- C9: run_rules applied to any successfully constructed RuleSorter
raises ValueError (from the second prepare of the underlying
TopologicalSorter) before any recipe is executed: the result carries the
ValueError and an empty event trace, for every run environment, dry-run
and output-sync flag, completion order and loop fuel. -/
theorem c9_double_prepare_valueerror (fs : String → Option Nat) (fr : Nat → Bool)
    (rules : List Rule) (target : String) (fuel : Nat) (sorter : RuleSorter) (tr : List Nat)
    (h : ruleSorterInit fs fr rules target fuel = some (.ok sorter, tr))
    (renv : RunEnv) (dr os : Bool) (pick : List String → Nat) (lfuel : Nat) :
    run_rules renv sorter dr os pick lfuel = some ([], some .valueError) := by
  have hready : sorter.topo.readyNodes.isSome := by
    unfold ruleSorterInit at h
    split at h
    · exact absurd h (by simp)
    · exact absurd h (by simp)
    · split at h
      · exact absurd h (by simp)
      · split at h
        · exact absurd h (by simp)
        next t1 hprep =>
          rw [Option.some_inj, Prod.mk.injEq] at h
          obtain ⟨h1, -⟩ := h
          rw [Except.ok.injEq] at h1
          subst h1
          exact prepare_readyNodes_isSome _ _ hprep
  unfold run_rules TopoSorter.prepare
  rw [if_pos hready]

/-- Rules of the concrete C9 witness scenario: a single rule whose path
target a does not exist. -/
def c9_rules : List Rule := [{ target := .path "a", recipe := some [.cmd "touch a"] }]

/-- RuleSorter state produced by ruleSorterInit on the C9 scenario. -/
def c9_sorter : RuleSorter :=
  ⟨registryOfRules c9_rules, [("a", [])], ⟨[("a", ⟨0, []⟩)], some ["a"], 0, 0⟩⟩

/-- Run environment of the C9 witness. -/
def c9_renv : RunEnv := ⟨(fun _ => 0), (fun _ => false)⟩

/-- Witness for C9: the scenario sorter is really produced by
ruleSorterInit, and run_rules on it yields ValueError with no event. -/
theorem c9_witness :
    ruleSorterInit (fun _ => none) (fun _ => true) c9_rules "a" 5 = some (.ok c9_sorter, [])
    ∧ run_rules c9_renv c9_sorter false false (fun _ => 0) 5 = some ([], some .valueError) :=
  ⟨rfl,
   c9_double_prepare_valueerror (fun _ => none) (fun _ => true) c9_rules "a" 5 c9_sorter []
     rfl c9_renv false false (fun _ => 0) 5⟩

/-- Rules of the C2 scenario: one outdated rule with a recipe. -/
def c2_rules : List Rule := [{ target := .path "a", recipe := some [.cmd "touch a"] }]

/-- RuleSorter produced on the C2 scenario (graph contains the rule a, so
the contract of C2 requires its recipe to run exactly once). -/
def c2_sorter : RuleSorter :=
  ⟨registryOfRules c2_rules, [("a", [])], ⟨[("a", ⟨0, []⟩)], some ["a"], 0, 0⟩⟩

/-- Run environment of the C2 evaluation: every command succeeds. -/
def c2_renv : RunEnv := ⟨(fun _ => 0), (fun _ => false)⟩

/-- C2 is violated by the code: on a resolver graph containing exactly the
outdated rule a, run_rules raises ValueError immediately (second prepare)
and executes no recipe at all, instead of running the rule once.  The
three conjuncts evaluate the constructor, the graph and run_rules at the
failing input. -/
theorem c2_run_rules_never_runs :
    ruleSorterInit (fun _ => none) (fun _ => true) c2_rules "a" 5 = some (.ok c2_sorter, [])
    ∧ c2_sorter.graph = [("a", [])]
    ∧ run_rules c2_renv c2_sorter false false (fun _ => 0) 9 = some ([], some .valueError) :=
  ⟨rfl, rfl, rfl⟩

end Gird

